import Mathlib

/-!
# Verification of the document-clustering engine (`src/clustering2.py`)

Shallow embedding of the text-normalization, TF-IDF vectorization, k-th
neighbor distance and DBSCAN clustering pipeline of `clustering2.py`,
together with theorems settling the specification claims.

Modelling conventions:
* Python strings are modelled as `List Char`; text handling (whitespace,
  lowercasing) is modelled at the ASCII level using `Char.isWhitespace`
  and `Char.toLower` from core, matching the behaviour of Python
  `str.strip` / `str.lower` on the ASCII range.
* Uploaded streamlit files are records carrying a name, raw bytes, and the
  result of `getvalue().decode("utf-8")` as an `Option (List Char)`
  (`none` models a `UnicodeDecodeError`).
* Real-valued cosine similarities `s = ⟪x,y⟫ / (‖x‖·‖y‖)` are represented
  exactly in `ℚ` through the strictly monotone encoding `s ↦ s·|s|`,
  which equals `⟪x,y⟫·|⟪x,y⟫| / (⟪x,x⟫·⟪y,y⟫)` and hence is a rational
  number computable from the vectors.  Cosine distances `d = 1 - s` are
  represented by the key `-s·|s|`, which is strictly increasing in `d`;
  comparisons and sorting of distances are carried out on keys.
  scikit-learn's `cosine_distances` maps zero rows to similarity `0`
  (distance `1`), which the encoding mirrors.
-/

namespace Clustering

/-! ## Text normalization (`normalize_line`, `get_file_structure`) -/

/-- Whitespace predicate used by the embedding of Python `str.strip`. -/
def isWS (c : Char) : Bool := c.isWhitespace

/-- Strip leading whitespace (left part of Python `str.strip`). -/
def stripL (l : List Char) : List Char := l.dropWhile isWS

/-- Strip trailing whitespace (right part of Python `str.strip`). -/
def stripR (l : List Char) : List Char := (l.reverse.dropWhile isWS).reverse

/-- Embedding of Python `str.strip` (both ends). -/
def stripChars (l : List Char) : List Char := stripR (stripL l)

/-- Embedding of `str.lower` (ASCII). -/
def lowerStr (l : List Char) : List Char := l.map Char.toLower

/-- `normalize_line(line)`: `line.strip().lower()` (clustering2.py:16-23). -/
def normalize_line (l : List Char) : List Char := lowerStr (stripChars l)

/-- Embedding of Python `str.split('\n')`.  `splitNl [] = [[]]` matches
`"".split('\n') == ['']`. -/
def splitNl : List Char → List (List Char)
  | [] => [[]]
  | c :: cs =>
    if c = '\n' then [] :: splitNl cs
    else
      match splitNl cs with
      | [] => [[c]]
      | p :: ps => (c :: p) :: ps

/-- Join pieces with a single space: `' '.join(pieces)`. -/
def joinSp : List (List Char) → List Char
  | [] => []
  | [p] => p
  | p :: q :: ps => p ++ ' ' :: joinSp (q :: ps)

/-- `get_file_structure(file_content)` (clustering2.py:25-38): split on
newlines, keep lines whose `strip()` is non-empty, clean each kept line
with `normalize_line`, and join with single spaces.  The Python
`except` branch is unreachable for the pure string operations involved,
so the embedding is total. -/
def get_file_structure (l : List Char) : List Char :=
  joinSp (((splitNl l).filter (fun ln => !(stripChars ln).isEmpty)).map normalize_line)

end Clustering

namespace Clustering

/-! ### Sanity examples (normalization) -/

example : get_file_structure ("  Hello\n\n WORLD  ".data) = ("hello world".data) := by decide

example : get_file_structure ("".data) = [] := by decide

/-! ## Character-level lemmas for the idempotence proof -/

theorem char_eq_of_toNat_eq {a b : Char} (h : a.toNat = b.toNat) : a = b :=
  Char.ext (UInt32.ext h)

theorem toNat_ofNat_valid (n : Nat) (h : n.isValidChar) : (Char.ofNat n).toNat = n := by
  unfold Char.ofNat
  rw [dif_pos h]
  rfl

theorem toLower_toNat (c : Char) :
    c.toLower.toNat = if c.toNat ≥ 65 ∧ c.toNat ≤ 90 then c.toNat + 32 else c.toNat := by
  unfold Char.toLower
  by_cases h : c.toNat ≥ 65 ∧ c.toNat ≤ 90
  · rw [if_pos h, if_pos h, toNat_ofNat_valid _ (Or.inl (by omega))]
  · rw [if_neg h, if_neg h]

theorem toLower_toLower (c : Char) : c.toLower.toLower = c.toLower := by
  apply char_eq_of_toNat_eq
  rw [toLower_toNat, toLower_toNat]
  split_ifs <;> omega

theorem isWS_iff_toNat (c : Char) :
    isWS c = true ↔ (c.toNat = 32 ∨ c.toNat = 9 ∨ c.toNat = 13 ∨ c.toNat = 10) := by
  unfold isWS Char.isWhitespace
  simp only [Bool.or_eq_true, decide_eq_true_eq]
  constructor
  · rintro (((h | h) | h) | h) <;> subst h <;> simp
  · rintro (h | h | h | h)
    · exact Or.inl (Or.inl (Or.inl (char_eq_of_toNat_eq h)))
    · exact Or.inl (Or.inl (Or.inr (char_eq_of_toNat_eq h)))
    · exact Or.inl (Or.inr (char_eq_of_toNat_eq h))
    · exact Or.inr (char_eq_of_toNat_eq h)

theorem isWS_toLower (c : Char) : isWS c.toLower = isWS c := by
  by_cases h : c.toNat ≥ 65 ∧ c.toNat ≤ 90
  · have h1 : isWS c.toLower = false := by
      rw [Bool.eq_false_iff]
      intro hws
      have := (isWS_iff_toNat _).mp hws
      rw [toLower_toNat, if_pos h] at this
      omega
    have h2 : isWS c = false := by
      rw [Bool.eq_false_iff]
      intro hws
      have := (isWS_iff_toNat _).mp hws
      omega
    rw [h1, h2]
  · have : c.toLower = c := by
      apply char_eq_of_toNat_eq
      rw [toLower_toNat, if_neg h]
    rw [this]

theorem toLower_ne_nl {c : Char} (h : c ≠ '\n') : c.toLower ≠ '\n' := by
  intro hc
  have h10 : c.toLower.toNat = 10 := by rw [hc]; rfl
  rw [toLower_toNat] at h10
  by_cases hcase : c.toNat ≥ 65 ∧ c.toNat ≤ 90
  · rw [if_pos hcase] at h10; omega
  · rw [if_neg hcase] at h10
    exact h (char_eq_of_toNat_eq h10)

/-! ## Lemmas about `splitNl`, `stripChars` and `joinSp` -/

/-- A string with no leading or trailing whitespace. -/
def cleanStr (l : List Char) : Prop :=
  (∀ a, l.head? = some a → isWS a = false) ∧ (∀ a, l.getLast? = some a → isWS a = false)

theorem splitNl_ne_nil (l : List Char) : splitNl l ≠ [] := by
  cases l with
  | nil => simp [splitNl]
  | cons c cs =>
    unfold splitNl
    split
    · simp
    · split <;> simp

theorem splitNl_no_nl {l : List Char} (h : '\n' ∉ l) : splitNl l = [l] := by
  induction l with
  | nil => rfl
  | cons c cs ih =>
    have hc : c ≠ '\n' := fun hc => h (hc ▸ List.mem_cons_self c cs)
    have hcs : '\n' ∉ cs := fun hm => h (List.mem_cons_of_mem _ hm)
    unfold splitNl
    rw [if_neg (fun hce => hc hce), ih hcs]

theorem mem_splitNl_no_nl {l p : List Char} (hp : p ∈ splitNl l) : '\n' ∉ p := by
  induction l generalizing p with
  | nil =>
    simp only [splitNl, List.mem_singleton] at hp
    subst hp; simp
  | cons c cs ih =>
    unfold splitNl at hp
    by_cases hc : c = '\n'
    · rw [if_pos hc] at hp
      rcases List.mem_cons.mp hp with h1 | h1
      · subst h1; simp
      · exact ih h1
    · rw [if_neg hc] at hp
      rcases hsplit : splitNl cs with _ | ⟨q, qs⟩
      · exact absurd hsplit (splitNl_ne_nil cs)
      · rw [hsplit] at hp
        rcases List.mem_cons.mp hp with h1 | h1
        · subst h1
          intro hmem
          rcases List.mem_cons.mp hmem with h2 | h2
          · exact hc h2.symm
          · exact ih (hsplit ▸ List.mem_cons_self q qs) h2
        · exact ih (hsplit ▸ List.mem_cons_of_mem q h1)

theorem stripL_head_not_ws {l : List Char} {a : Char} (h : (stripL l).head? = some a) :
    isWS a = false := by
  have hne : stripL l ≠ [] := by
    intro hnil; rw [hnil] at h; simp at h
  have h3 : (stripL l).head hne = a := by
    rw [List.head?_eq_head hne, Option.some_inj] at h
    exact h
  rw [← h3]
  exact List.head_dropWhile_not isWS l hne

theorem stripR_getLast_not_ws {l : List Char} {a : Char} (h : (stripR l).getLast? = some a) :
    isWS a = false := by
  unfold stripR at h
  rw [← List.head?_reverse, List.reverse_reverse] at h
  exact stripL_head_not_ws h

theorem stripR_head? (l : List Char) :
    stripR l = [] ∨ (stripR l).head? = l.head? := by
  cases l with
  | nil => left; rfl
  | cons a m =>
    unfold stripR
    rw [List.reverse_cons, List.dropWhile_append]
    by_cases hemp : (List.dropWhile isWS m.reverse).isEmpty = true
    · rw [if_pos hemp]
      by_cases hws : isWS a = true
      · left
        simp [List.dropWhile_cons, hws]
      · right
        simp [List.dropWhile_cons, hws]
    · right
      rw [if_neg hemp, List.reverse_append, List.reverse_singleton]
      rfl

theorem stripL_eq_self {l : List Char} (h : ∀ a, l.head? = some a → isWS a = false) :
    stripL l = l := by
  cases l with
  | nil => rfl
  | cons a m =>
    unfold stripL
    rw [List.dropWhile_cons, if_neg]
    rw [h a rfl]
    simp

theorem stripR_eq_self {l : List Char} (h : ∀ a, l.getLast? = some a → isWS a = false) :
    stripR l = l := by
  unfold stripR
  have : List.dropWhile isWS l.reverse = l.reverse := by
    apply stripL_eq_self
    intro a ha
    rw [List.head?_reverse] at ha
    exact h a ha
  rw [this, List.reverse_reverse]

theorem stripChars_eq_self {l : List Char} (h : cleanStr l) : stripChars l = l := by
  unfold stripChars
  rw [stripL_eq_self h.1, stripR_eq_self h.2]

theorem stripChars_clean (l : List Char) : cleanStr (stripChars l) := by
  constructor
  · intro a ha
    unfold stripChars at ha
    rcases stripR_head? (stripL l) with hc | hc
    · rw [hc] at ha; simp at ha
    · rw [hc] at ha
      exact stripL_head_not_ws ha
  · intro a ha
    exact stripR_getLast_not_ws ha

theorem mem_stripChars {l : List Char} {a : Char} (h : a ∈ stripChars l) : a ∈ l := by
  unfold stripChars stripR stripL at h
  rw [List.mem_reverse] at h
  have h2 := (@List.dropWhile_sublist _ ((l.dropWhile isWS).reverse) isWS).subset h
  rw [List.mem_reverse] at h2
  exact (List.dropWhile_sublist isWS).subset h2

/-- Strings produced by `normalize_line` on kept lines: non-empty, no
surrounding whitespace, no newline, all characters fixed by `toLower`. -/
def goodPiece (p : List Char) : Prop :=
  p ≠ [] ∧ cleanStr p ∧ '\n' ∉ p ∧ ∀ c ∈ p, c.toLower = c

theorem or_some_left {α : Type} (b : α) (o : Option α) : (Option.or (some b) o) = some b := rfl

theorem map_some_eq {α β : Type} (f : α → β) (b : α) : Option.map f (some b) = some (f b) := rfl

theorem joinSp_cons_cons (p q : List Char) (ps : List (List Char)) :
    joinSp (p :: q :: ps) = p ++ ' ' :: joinSp (q :: ps) := rfl

theorem joinSp_good (P : List (List Char)) (h : ∀ p ∈ P, goodPiece p) (hne : P ≠ []) :
    goodPiece (joinSp P) := by
  induction P with
  | nil => exact absurd rfl hne
  | cons p P ih =>
    cases P with
    | nil =>
      show goodPiece (joinSp [p])
      have : joinSp [p] = p := rfl
      rw [this]
      exact h p (List.mem_cons_self p [])
    | cons q ps =>
      have hp : goodPiece p := h p (List.mem_cons_self _ _)
      have hJ : goodPiece (joinSp (q :: ps)) :=
        ih (fun x hx => h x (List.mem_cons_of_mem p hx)) (by simp)
      rw [joinSp_cons_cons]
      refine ⟨?_, ⟨?_, ?_⟩, ?_, ?_⟩
      · intro hc
        exact hp.1 (List.append_eq_nil.mp hc).1
      · intro a ha
        rw [List.head?_append] at ha
        rcases hh : p.head? with _ | b
        · rw [hh] at ha
          exact absurd hh (by cases p with
            | nil => exact absurd rfl hp.1
            | cons x t => simp)
        · rw [hh] at ha
          rw [or_some_left] at ha
          exact (Option.some_inj.mp ha) ▸ hp.2.1.1 b hh
      · intro a ha
        rw [List.getLast?_append] at ha
        have hJne : joinSp (q :: ps) ≠ [] := hJ.1
        have hlast : (' ' :: joinSp (q :: ps)).getLast? = (joinSp (q :: ps)).getLast? := by
          cases hJc : joinSp (q :: ps) with
          | nil => exact absurd hJc hJne
          | cons c t => rw [List.getLast?_cons_cons]
        rw [hlast] at ha
        rcases hg : (joinSp (q :: ps)).getLast? with _ | b
        · rw [hg] at ha
          exact absurd hg (by
            cases hJc : joinSp (q :: ps) with
            | nil => exact absurd hJc hJne
            | cons c t => simp [hJc])
        · rw [hg] at ha
          rw [or_some_left] at ha
          exact (Option.some_inj.mp ha) ▸ hJ.2.1.2 b hg
      · intro hmem
        rcases List.mem_append.mp hmem with h1 | h1
        · exact hp.2.2.1 h1
        · rcases List.mem_cons.mp h1 with h2 | h2
          · exact absurd h2.symm (by decide)
          · exact hJ.2.2.1 h2
      · intro c hc
        rcases List.mem_append.mp hc with h1 | h1
        · exact hp.2.2.2 c h1
        · rcases List.mem_cons.mp h1 with h2 | h2
          · subst h2; decide
          · exact hJ.2.2.2 c h2

theorem normalize_line_good {ln : List Char} (hnl : '\n' ∉ ln)
    (hne : stripChars ln ≠ []) : goodPiece (normalize_line ln) := by
  unfold normalize_line lowerStr
  have hclean := stripChars_clean ln
  refine ⟨?_, ⟨?_, ?_⟩, ?_, ?_⟩
  · intro hc
    exact hne (List.map_eq_nil_iff.mp hc)
  · intro a ha
    rw [List.head?_map] at ha
    rcases hh : (stripChars ln).head? with _ | b
    · rw [hh] at ha; simp at ha
    · rw [hh] at ha
      rw [map_some_eq] at ha
      rw [← Option.some_inj.mp ha, isWS_toLower]
      exact hclean.1 b hh
  · intro a ha
    rw [List.getLast?_map] at ha
    rcases hh : (stripChars ln).getLast? with _ | b
    · rw [hh] at ha; simp at ha
    · rw [hh] at ha
      rw [map_some_eq] at ha
      rw [← Option.some_inj.mp ha, isWS_toLower]
      exact hclean.2 b hh
  · intro hmem
    rcases List.mem_map.mp hmem with ⟨b, hb, hbe⟩
    have hbnl : b ≠ '\n' := fun hc => hnl (hc ▸ mem_stripChars hb)
    exact toLower_ne_nl hbnl hbe
  · intro c hc
    rcases List.mem_map.mp hc with ⟨b, _, hbe⟩
    rw [← hbe]
    exact toLower_toLower b

theorem lowerStr_fixed {m : List Char} (h : ∀ c ∈ m, c.toLower = c) : lowerStr m = m :=
  (List.map_congr_left h).trans (List.map_id m)

theorem gfs_of_good {R : List Char} (h : goodPiece R) : get_file_structure R = R := by
  obtain ⟨hne, hclean, hnl, hfix⟩ := h
  unfold get_file_structure
  rw [splitNl_no_nl hnl]
  have hq : (!(stripChars R).isEmpty) = true := by
    rw [stripChars_eq_self hclean]
    cases R with
    | nil => exact absurd rfl hne
    | cons a t => rfl
  simp only [List.filter_cons, hq, if_true, List.filter_nil, List.map_cons, List.map_nil]
  show joinSp [normalize_line R] = R
  unfold normalize_line
  rw [stripChars_eq_self hclean, lowerStr_fixed hfix]
  rfl

/-- **C9**: normalization is idempotent — applying `get_file_structure`
(the per-document normalizer of clustering2.py) to an already-normalized
string returns it unchanged: `normalize(normalize(x)) = normalize(x)`. -/
theorem normalize_idempotent (l : List Char) :
    get_file_structure (get_file_structure l) = get_file_structure l := by
  have hgood : ∀ p ∈ ((splitNl l).filter (fun ln => !(stripChars ln).isEmpty)).map
      normalize_line, goodPiece p := by
    intro p hp
    rcases List.mem_map.mp hp with ⟨ln, hln, hpe⟩
    rcases List.mem_filter.mp hln with ⟨hmem, hkeep⟩
    have hnz : stripChars ln ≠ [] := by
      intro hc; rw [hc] at hkeep; simp at hkeep
    exact hpe ▸ normalize_line_good (mem_splitNl_no_nl hmem) hnz
  rcases hPc : ((splitNl l).filter (fun ln => !(stripChars ln).isEmpty)).map
      normalize_line with _ | ⟨p, ps⟩
  · have hz : get_file_structure l = [] := by
      unfold get_file_structure
      rw [hPc]
      rfl
    rw [hz]
    decide
  · have hgoodR : goodPiece (get_file_structure l) := by
      unfold get_file_structure
      rw [hPc]
      exact joinSp_good _ (hPc ▸ hgood) (by simp)
    exact gfs_of_good hgoodR

end Clustering

namespace Clustering

/-! ## Uploaded files and `process_files` (clustering2.py:92-122)

An uploaded streamlit file carries a name, its raw bytes (the value of
`file.getvalue()`, used verbatim when archiving), and the result of
`file.getvalue().decode("utf-8")`: `none` models a `UnicodeDecodeError`,
in which case `process_files` reports the error and skips the file. -/

structure UFile where
  name : String
  bytes : List Nat
  decoded : Option (List Char)
deriving DecidableEq, Repr

instance : Inhabited UFile := ⟨⟨"", [], none⟩⟩

/-- The accumulation loop of `process_files`: for each file, skip it if
decoding failed (the `except ... continue` branch), compute its
structure, and keep the file and structure only when the structure is
truthy (`if structure:` — the empty string is falsy in Python, so a
document normalizing to the empty string is dropped). -/
def processFilesLoop : List UFile → List UFile × List (List Char)
  | [] => ([], [])
  | f :: fs =>
    let rest := processFilesLoop fs
    match f.decoded with
    | none => rest
    | some c =>
      if (get_file_structure c).isEmpty then rest
      else (f :: rest.1, get_file_structure c :: rest.2)

/-- `process_files(files)`: returns `none` for the
`if not processed_files: st.warning(...); return None, None, None`
branch, otherwise the kept files, their names, and their structures.
(The source returns the TF-IDF matrix `X` of the structures in the third
slot; vectorization is embedded separately below, so the structures
stand in for their vector rows, in the same order.) -/
def process_files (files : List UFile) :
    Option (List UFile × List String × List (List Char)) :=
  let r := processFilesLoop files
  if r.1.isEmpty then none
  else some (r.1, r.1.map (fun f => f.name), r.2)

/-! ## `save_clustered_files` (clustering2.py:126-139)

Each (file, label) pair from `zip(processed_files, labels)` produces one
archive entry `os.path.join("cluster_" + str(label), file.name)` holding
the file's raw bytes.  An entry is modelled as
(folder name, file name, bytes); `os.path.join` concatenates the two
path components, and the archive groups entries by folder. -/

def folder_name (label : Int) : String := "cluster_" ++ toString label

def save_clustered_files (pf : List UFile) (labels : List Int) :
    List (String × String × List Nat) :=
  (pf.zip labels).map (fun fl => (folder_name fl.2, fl.1.name, fl.1.bytes))

/-! ## Cosine distances in exact arithmetic

scikit-learn's cosine distance (used by `NearestNeighbors` and `DBSCAN`
with `metric='cosine'`) is `d(x,y) = 1 - s(x,y)` with
`s(x,y) = ⟪x,y⟫ / (‖x‖·‖y‖)`, where a row with zero norm is left at zero
by `sklearn.preprocessing.normalize`, giving `s = 0` (so `d = 1`) for any
pair of DISTINCT positions involving an all-zero vector.  In both call
sites of this program the query matrix is the very object that was
fitted (`kneighbors(X_dense)` after `fit(X_dense)`, and
`DBSCAN.fit(X)`'s internal `radius_neighbors(X)`), so
`cosine_distances` takes its `X is Y` branch and executes
`S[np.diag_indices_from(S)] = 0.0`: every positional self-distance —
an all-zero row's included — is forced to exactly `0.0`.  The
value-level similarity `s` is encoded by the strictly increasing map
`s ↦ s·|s|`, whose value `⟪x,y⟫·|⟪x,y⟫| / (⟪x,x⟫·⟪y,y⟫)` is rational;
distances are encoded by `-s·|s|`, strictly increasing in `d` (key `-1`
is distance `0`, key `0` is distance `1`).  The index-level functions
(`distKeys`, `withinEpsIdx`) add the zeroed diagonal on top of the
value-level pair functions.  All comparisons between distances
performed by the source are mirrored on the encodings. -/

/-- Dot product of two rows (equal length in every use). -/
def dotp (x y : List ℚ) : ℚ := ((x.zip y).map (fun p => p.1 * p.2)).sum

/-- Encoding `s·|s|` of the cosine similarity of `x` and `y`. -/
def simKey (x y : List ℚ) : ℚ :=
  if dotp x x * dotp y y = 0 then 0
  else dotp x y * |dotp x y| / (dotp x x * dotp y y)

/-- Encoding of the cosine distance of `x` and `y` (increasing in the
distance: key `-1` is distance `0`, key `0` is distance `1`). -/
def distKey (x y : List ℚ) : ℚ := -simKey x y

/-- `d(x,y) ≤ eps`, i.e. `s(x,y) ≥ 1 - eps`, decided on the encodings:
`s ≥ 1 - eps ↔ s·|s| ≥ (1-eps)·|1-eps|`. -/
def withinEps (x y : List ℚ) (eps : ℚ) : Bool :=
  decide ((1 - eps) * |1 - eps| ≤ simKey x y)

/-! ## `plot_k_distance` (clustering2.py:71-88)

`NearestNeighbors(n_neighbors=k, metric='cosine').fit(X).kneighbors(X)`
returns, for each row `i`, the `k` smallest cosine distances from row
`i` to the rows of `X` — the query matrix is the fitted matrix itself,
so row `i` is among the candidates and its self-distance is the zeroed
diagonal entry `0.0` (for every row, zero rows included).
`distances[:, k-1]` is therefore the k-th smallest distance including
self.  The call raises a `ValueError` when `k = 0` or `k > len(X)`
(`Expected n_neighbors <= n_samples`), modelled by `none`.  The final
`np.sort` sorts the per-row values ascending. -/

/-- Insertion of a key into a sorted list (ascending). -/
def insortQ (a : ℚ) : List ℚ → List ℚ
  | [] => [a]
  | b :: bs => if a ≤ b then a :: b :: bs else b :: insortQ a bs

/-- Insertion sort, ascending — the embedding of `np.sort` on distance
keys (any correct ascending sort computes the same value sequence). -/
def sortQ : List ℚ → List ℚ
  | [] => []
  | a :: as => insortQ a (sortQ as)

/-- Distance keys from row `i` to every row of `X` (row `i` included,
as in the source's self-inclusive neighbor query).  The diagonal entry
`j = i` is the key `-1` of distance `0`: `cosine_distances` zeroes the
diagonal in its `X is Y` branch, regardless of the row's norm. -/
def distKeys (X : List (List ℚ)) (i : ℕ) : List ℚ :=
  (List.range X.length).map (fun j =>
    if i = j then -1 else distKey (X.getD i []) (X.getD j []))

/-- The k-th smallest distance (key) from row `i` to the rows of `X`,
self included — the value `distances[i, k-1]` of the source. -/
def kthDistanceKey (X : List (List ℚ)) (k : ℕ) (i : ℕ) : ℚ :=
  (sortQ (distKeys X i)).getD (k - 1) 0

/-- `plot_k_distance(X, min_samples=k)`: the ascending list of per-row
k-th-neighbor distance keys, or `none` when the underlying library call
raises. -/
def plot_k_distance (X : List (List ℚ)) (k : ℕ) : Option (List ℚ) :=
  if k = 0 ∨ X.length < k then none
  else some (sortQ ((List.range X.length).map (kthDistanceKey X k)))

/-! ## DBSCAN (clustering2.py:167-169)

`DBSCAN(eps=eps, min_samples=m, metric='cosine').fit_predict(X)`:
neighborhoods are the closed balls `{j | d(i,j) ≤ eps}` over the zeroed-
diagonal distance matrix, so every point — zero rows included — is its
own neighbor whenever `eps ≥ 0`; a point is a core point when its
neighborhood has at least `min_samples` members.  Labels start at `-1`
(noise); scanning points in input order, each still-unlabeled core
point seeds a new cluster (numbered from 0) and is expanded by a
stack-based search that labels every unlabeled point reachable through
core points (sklearn's `dbscan_inner`).  Labels are modelled as a
function `ℕ → Int` (the label array); the expansion carries fuel
`n*n + 1`, which bounds the total number of stack pushes (each push
targets an unlabeled point from some neighborhood list, and at most
`Σᵢ |N(i)| ≤ n²` pushes can ever occur), so the fuel never runs out. -/

/-- Index-level neighborhood test: the diagonal entry is the zeroed
self-distance `0` (within `eps` iff `0 ≤ eps`), off-diagonal pairs use
the value-level cosine distance. -/
def withinEpsIdx (vs : List (List ℚ)) (eps : ℚ) (i j : ℕ) : Bool :=
  if i = j then decide (0 ≤ eps)
  else withinEps (vs.getD i []) (vs.getD j []) eps

/-- Indices within `eps` of row `i` (closed ball over the
zeroed-diagonal distance matrix, so `i` itself is always a member when
`eps ≥ 0`). -/
def neighborsOf (vs : List (List ℚ)) (eps : ℚ) (i : ℕ) : List ℕ :=
  (List.range vs.length).filter (fun j => withinEpsIdx vs eps i j)

/-- Core-point test: at least `minPts` neighbors within `eps`. -/
def isCore (vs : List (List ℚ)) (eps : ℚ) (minPts : ℕ) (i : ℕ) : Bool :=
  decide (minPts ≤ (neighborsOf vs eps i).length)

/-- Pointwise update of the label array. -/
def updLab (labels : ℕ → Int) (i : ℕ) (v : Int) : ℕ → Int :=
  fun p => if p = i then v else labels p

/-- One labelling step of sklearn's `dbscan_inner`: label the current
point if it is unlabeled. -/
def innerLabels (labels : ℕ → Int) (lab : Int) (i : ℕ) : ℕ → Int :=
  if labels i == -1 then updLab labels i lab else labels

/-- One stack step of sklearn's `dbscan_inner`: if the current point
was unlabeled and is a core point, push its still-unlabeled neighbors. -/
def innerStack (nbrs : ℕ → List ℕ) (core : ℕ → Bool) (labels : ℕ → Int)
    (lab : Int) (i : ℕ) (stack : List ℕ) : List ℕ :=
  if labels i == -1 && core i then
    stack ++ (nbrs i).filter (fun v => innerLabels labels lab i v == -1)
  else stack

/-- sklearn's `dbscan_inner` expansion loop: label the current point if
unlabeled, push its unlabeled neighbors if it is a core point, then pop
the next point off the stack (LIFO). -/
def dbscanInner : ℕ → (ℕ → List ℕ) → (ℕ → Bool) → Int → ℕ → List ℕ → (ℕ → Int) → (ℕ → Int)
  | 0, _, _, _, _, _, labels => labels
  | fuel + 1, nbrs, core, lab, i, stack, labels =>
    match (innerStack nbrs core labels lab i stack).getLast? with
    | none => innerLabels labels lab i
    | some j =>
      dbscanInner fuel nbrs core lab j
        (innerStack nbrs core labels lab i stack).dropLast
        (innerLabels labels lab i)

/-- The outer scan of sklearn's DBSCAN: visit points in input order,
skip labeled or non-core points, expand each remaining core point into
a fresh cluster. -/
def dbscanOuter : List ℕ → (ℕ → List ℕ) → (ℕ → Bool) → ℕ → Int → (ℕ → Int) → (ℕ → Int)
  | [], _, _, _, _, labels => labels
  | i :: rest, nbrs, core, fuel, labelNum, labels =>
    if labels i != -1 || !core i then
      dbscanOuter rest nbrs core fuel labelNum labels
    else
      dbscanOuter rest nbrs core fuel (labelNum + 1)
        (dbscanInner fuel nbrs core labelNum i [] labels)

/-- `DBSCAN(eps, min_samples, metric='cosine').fit_predict(vs)` as the
final label array. -/
def dbscan (vs : List (List ℚ)) (eps : ℚ) (minPts : ℕ) : ℕ → Int :=
  dbscanOuter (List.range vs.length) (neighborsOf vs eps) (isCore vs eps minPts)
    (vs.length * vs.length + 1) 0 (fun _ => -1)

end Clustering

namespace Clustering

/-! ## Evaluation lemmas for the similarity encoding -/

theorem dotp_self_nonneg (v : List ℚ) : 0 ≤ dotp v v := by
  unfold dotp
  induction v with
  | nil => simp
  | cons a t ih =>
    rw [List.zip_cons_cons, List.map_cons, List.sum_cons]
    have ha : 0 ≤ a * a := mul_self_nonneg a
    exact add_nonneg ha ih

/-- A row has similarity `1` with itself when its norm is nonzero. -/
theorem simKey_self {v : List ℚ} (h : dotp v v ≠ 0) : simKey v v = 1 := by
  unfold simKey
  have hpos : 0 < dotp v v := lt_of_le_of_ne (dotp_self_nonneg v) (Ne.symm h)
  rw [if_neg (by positivity)]
  rw [abs_of_pos hpos]
  field_simp

/-- Any pair involving a zero-norm row has similarity `0` (sklearn's
`normalize` leaves zero rows at zero). -/
theorem simKey_zero_left {x : List ℚ} (y : List ℚ) (h : dotp x x = 0) :
    simKey x y = 0 := by
  unfold simKey
  rw [if_pos (by rw [h]; ring)]

theorem simKey_zero_right (x : List ℚ) {y : List ℚ} (h : dotp y y = 0) :
    simKey x y = 0 := by
  unfold simKey
  rw [if_pos (by rw [h]; ring)]

/-- Orthogonal rows have similarity `0`. -/
theorem simKey_orth {x y : List ℚ} (h : dotp x y = 0) : simKey x y = 0 := by
  unfold simKey
  split
  · rfl
  · rw [h]
    simp

/-- The encoded neighborhood threshold is at most the self-similarity
encoding `1` whenever `eps > 0`. -/
theorem threshold_le_one {eps : ℚ} (h : 0 < eps) : (1 - eps) * |1 - eps| ≤ 1 := by
  rcases le_or_lt (1 - eps) 0 with hc | hc
  · calc (1 - eps) * |1 - eps| ≤ 0 := mul_nonpos_of_nonpos_of_nonneg hc (abs_nonneg _)
    _ ≤ 1 := by norm_num
  · rw [abs_of_pos hc]
    nlinarith

/-- The encoded threshold is `≤ 0` (distance `1` within `eps`) exactly
when `eps ≥ 1`. -/
theorem threshold_nonpos_iff {eps : ℚ} : (1 - eps) * |1 - eps| ≤ 0 ↔ 1 ≤ eps := by
  constructor
  · intro h
    by_contra hc
    push_neg at hc
    have h1 : 0 < 1 - eps := by linarith
    rw [abs_of_pos h1] at h
    nlinarith
  · intro h
    have h1 : 1 - eps ≤ 0 := by linarith
    exact mul_nonpos_of_nonpos_of_nonneg h1 (abs_nonneg _)

theorem withinEps_true_iff {x y : List ℚ} {eps : ℚ} :
    withinEps x y eps = true ↔ (1 - eps) * |1 - eps| ≤ simKey x y := by
  unfold withinEps
  exact decide_eq_true_iff

/-- A nonzero row is always within `eps > 0` of itself (distance `0`). -/
theorem withinEps_self {v : List ℚ} {eps : ℚ} (hv : dotp v v ≠ 0) (he : 0 < eps) :
    withinEps v v eps = true := by
  rw [withinEps_true_iff, simKey_self hv]
  exact threshold_le_one he

/-- A zero-norm row is within `eps` of a row `y` iff `eps ≥ 1`
(the cosine distance is exactly `1`). -/
theorem withinEps_zero_left {x : List ℚ} (y : List ℚ) {eps : ℚ} (h : dotp x x = 0) :
    withinEps x y eps = (decide (1 ≤ eps)) := by
  rcases le_or_lt 1 eps with hc | hc
  · rw [withinEps_true_iff.mpr, decide_eq_true hc]
    rw [simKey_zero_left y h]
    exact threshold_nonpos_iff.mpr hc
  · have : withinEps x y eps = false := by
      unfold withinEps
      rw [decide_eq_false_iff_not]
      rw [simKey_zero_left y h]
      intro hcontra
      exact absurd (threshold_nonpos_iff.mp hcontra) (by linarith)
    rw [this, decide_eq_false (by linarith)]

theorem withinEps_zero_right (x : List ℚ) {y : List ℚ} {eps : ℚ} (h : dotp y y = 0) :
    withinEps x y eps = (decide (1 ≤ eps)) := by
  rcases le_or_lt 1 eps with hc | hc
  · rw [withinEps_true_iff.mpr, decide_eq_true hc]
    rw [simKey_zero_right x h]
    exact threshold_nonpos_iff.mpr hc
  · have : withinEps x y eps = false := by
      unfold withinEps
      rw [decide_eq_false_iff_not]
      rw [simKey_zero_right x h]
      intro hcontra
      exact absurd (threshold_nonpos_iff.mp hcontra) (by linarith)
    rw [this, decide_eq_false (by linarith)]

/-- Orthogonal rows are within `eps` iff `eps ≥ 1`. -/
theorem withinEps_orth {x y : List ℚ} {eps : ℚ} (h : dotp x y = 0) :
    withinEps x y eps = (decide (1 ≤ eps)) := by
  rcases le_or_lt 1 eps with hc | hc
  · rw [withinEps_true_iff.mpr, decide_eq_true hc]
    rw [simKey_orth h]
    exact threshold_nonpos_iff.mpr hc
  · have : withinEps x y eps = false := by
      unfold withinEps
      rw [decide_eq_false_iff_not]
      rw [simKey_orth h]
      intro hcontra
      exact absurd (threshold_nonpos_iff.mp hcontra) (by linarith)
    rw [this, decide_eq_false (by linarith)]

end Clustering

namespace Clustering

/-! ## Lemmas about `process_files` -/

theorem processFilesLoop_len (files : List UFile) :
    (processFilesLoop files).2.length = (processFilesLoop files).1.length := by
  induction files with
  | nil => rfl
  | cons f fs ih =>
    unfold processFilesLoop
    rcases hd : f.decoded with _ | c
    · exact ih
    · by_cases he : (get_file_structure c).isEmpty
      · simp only [he, if_true]
        exact ih
      · simp only [he, Bool.false_eq_true, if_false]
        simp only [List.length_cons]
        rw [ih]

/-- Every file kept by the loop decoded successfully and has a
non-empty structure (the `if structure:` test). -/
theorem processFilesLoop_mem {files : List UFile} {f : UFile}
    (h : f ∈ (processFilesLoop files).1) :
    ∃ c, f.decoded = some c ∧ (get_file_structure c).isEmpty = false := by
  induction files with
  | nil => simp [processFilesLoop] at h
  | cons g fs ih =>
    unfold processFilesLoop at h
    rcases hd : g.decoded with _ | c
    · rw [hd] at h
      exact ih h
    · rw [hd] at h
      by_cases he : (get_file_structure c).isEmpty
      · simp only [he, if_true] at h
        exact ih h
      · simp only [he, Bool.false_eq_true, if_false] at h
        rcases List.mem_cons.mp h with h1 | h1
        · subst h1
          exact ⟨c, hd, Bool.eq_false_iff.mpr he⟩
        · exact ih h1

/-- Index-wise content of the loop output: position `i` of the
structure list is the structure of position `i` of the kept-file list. -/
theorem processFilesLoop_getD (files : List UFile) (i : ℕ)
    (hi : i < (processFilesLoop files).1.length) :
    ∃ c, ((processFilesLoop files).1.getD i default).decoded = some c ∧
      (processFilesLoop files).2.getD i [] = get_file_structure c ∧
      (get_file_structure c).isEmpty = false := by
  induction files generalizing i with
  | nil => simp [processFilesLoop] at hi
  | cons g fs ih =>
    rcases hd : g.decoded with _ | c
    · have hred : processFilesLoop (g :: fs) = processFilesLoop fs := by
        simp [processFilesLoop, hd]
      rw [hred] at hi ⊢
      exact ih i hi
    · by_cases he : (get_file_structure c).isEmpty = true
      · have hred : processFilesLoop (g :: fs) = processFilesLoop fs := by
          simp [processFilesLoop, hd, he]
        rw [hred] at hi ⊢
        exact ih i hi
      · have hred : processFilesLoop (g :: fs) =
            (g :: (processFilesLoop fs).1,
             get_file_structure c :: (processFilesLoop fs).2) := by
          simp [processFilesLoop, hd, he]
        rw [hred] at hi ⊢
        cases i with
        | zero => exact ⟨c, hd, rfl, Bool.eq_false_iff.mpr he⟩
        | succ j =>
          simp only [List.length_cons, Nat.succ_lt_succ_iff] at hi
          simp only [List.getD_cons_succ]
          exact ih j hi

/-- **C2 (amended)**: a document whose normalization yields the empty
string is dropped by `process_files` — every file in the returned list
decoded successfully and has a non-empty normalized structure, so an
empty document never reaches vectorization or clustering. -/
theorem processed_docs_have_nonempty_structure
    {files pf : List UFile} {names : List String} {strs : List (List Char)}
    (h : process_files files = some (pf, names, strs)) :
    ∀ f ∈ pf, ∃ c, f.decoded = some c ∧ (get_file_structure c).isEmpty = false := by
  intro f hf
  unfold process_files at h
  by_cases hemp : (processFilesLoop files).1.isEmpty
  · simp only [hemp, if_true] at h
    cases h
  · simp only [hemp, Bool.false_eq_true, if_false, Option.some_inj, Prod.mk.injEq] at h
    exact processFilesLoop_mem (h.1 ▸ hf)

/-- **C2 (witness)**: instantiation of the amended claim on a concrete
three-file corpus containing an empty document, at the first surviving
file. -/
theorem processed_docs_have_nonempty_structure_witness :
    ∃ c, (UFile.mk "a.txt" [104] (some ['h', 'i'])).decoded = some c ∧
      (get_file_structure c).isEmpty = false :=
  @processed_docs_have_nonempty_structure
    [UFile.mk "empty.txt" [10] (some ['\n']),
     UFile.mk "a.txt" [104] (some ['h', 'i']),
     UFile.mk "b.txt" [105] (some ['h', 'i'])]
    [UFile.mk "a.txt" [104] (some ['h', 'i']),
     UFile.mk "b.txt" [105] (some ['h', 'i'])]
    ["a.txt", "b.txt"]
    [['h', 'i'], ['h', 'i']]
    (by decide)
    (UFile.mk "a.txt" [104] (some ['h', 'i']))
    (by decide)

/-- **C2 (counterexample)**: the claim says an empty raw-text document
is retained through the pipeline; in the code `if structure:` is false
for the empty string, so the empty document is dropped from
`processed_files` — it is not in the result and can appear in no
cluster. -/
theorem empty_doc_dropped_cex :
    process_files [UFile.mk "empty.txt" [10] (some ['\n']),
                   UFile.mk "a.txt" [104] (some ['h', 'i']),
                   UFile.mk "b.txt" [105] (some ['h', 'i'])] =
      some ([UFile.mk "a.txt" [104] (some ['h', 'i']),
             UFile.mk "b.txt" [105] (some ['h', 'i'])],
            ["a.txt", "b.txt"],
            [['h', 'i'], ['h', 'i']]) ∧
    UFile.mk "empty.txt" [10] (some ['\n']) ∉
      [UFile.mk "a.txt" [104] (some ['h', 'i']),
       UFile.mk "b.txt" [105] (some ['h', 'i'])] := by
  constructor
  · decide
  · decide

end Clustering

namespace Clustering

/-! ## C4: no up-front validation, no ConfigurationError -/

/-- **C4 (counterexample)**: the claim says invalid parameter
combinations (empty document list, duplicate document ids) raise a
`ConfigurationError` before any work starts.  The code defines no such
error: an empty upload list produces the warning branch (`None`
result), and two files with identical ids are processed without any
validation. -/
theorem no_configuration_error_cex :
    process_files ([] : List UFile) = none ∧
    process_files [UFile.mk "dup.txt" [104] (some ['h', 'i']),
                   UFile.mk "dup.txt" [104] (some ['h', 'i'])] =
      some ([UFile.mk "dup.txt" [104] (some ['h', 'i']),
             UFile.mk "dup.txt" [104] (some ['h', 'i'])],
            ["dup.txt", "dup.txt"],
            [['h', 'i'], ['h', 'i']]) := by
  constructor
  · rfl
  · decide

/-- **C4 (amended)**: `process_files` performs no parameter validation
and raises nothing: an empty (or fully filtered-out) document list
yields the warning branch, returning `None` instead of raising, and a
list with duplicate ids is processed as-is; `eps ≤ 0` and
`min_points < 1` are excluded only by the UI widgets (`st.number_input`
bounds), not by engine validation. -/
theorem no_upfront_validation (f : UFile) (c : List Char)
    (h1 : f.decoded = some c) (h2 : (get_file_structure c).isEmpty = false) :
    process_files [] = none ∧
    process_files [f, f] =
      some ([f, f], [f.name, f.name],
            [get_file_structure c, get_file_structure c]) := by
  constructor
  · rfl
  · have hloop : processFilesLoop [f, f] =
        ([f, f], [get_file_structure c, get_file_structure c]) := by
      simp [processFilesLoop, h1, h2]
    unfold process_files
    rw [hloop]
    rfl

/-- **C4 (witness)**: the amended claim at a concrete duplicated file. -/
theorem no_upfront_validation_witness :
    process_files [] = none ∧
    process_files [UFile.mk "x.txt" [104] (some ['h', 'i']),
                   UFile.mk "x.txt" [104] (some ['h', 'i'])] =
      some ([UFile.mk "x.txt" [104] (some ['h', 'i']),
             UFile.mk "x.txt" [104] (some ['h', 'i'])],
            [(UFile.mk "x.txt" [104] (some ['h', 'i'])).name,
             (UFile.mk "x.txt" [104] (some ['h', 'i'])).name],
            [get_file_structure ['h', 'i'], get_file_structure ['h', 'i']]) :=
  no_upfront_validation (UFile.mk "x.txt" [104] (some ['h', 'i'])) ['h', 'i']
    rfl (by decide)

/-! ## C10: positional alignment of the pipeline -/

theorem save_clustered_files_length (pf : List UFile) (labels : List Int)
    (h : labels.length = pf.length) :
    (save_clustered_files pf labels).length = pf.length := by
  unfold save_clustered_files
  rw [List.length_map, List.length_zip, h, Nat.min_self]

theorem save_clustered_files_getD (pf : List UFile) (labels : List Int)
    (h : labels.length = pf.length) (i : ℕ) (hi : i < pf.length) :
    (save_clustered_files pf labels).getD i ("", "", []) =
      (folder_name (labels.getD i 0), (pf.getD i default).name,
       (pf.getD i default).bytes) := by
  induction pf generalizing labels i with
  | nil => simp at hi
  | cons f fs ih =>
    cases labels with
    | nil => simp at h
    | cons l ls =>
      cases i with
      | zero => rfl
      | succ j =>
        have h2 : ls.length = fs.length := by simpa using h
        have hj : j < fs.length := by simpa using hi
        simp only [save_clustered_files, List.zip_cons_cons, List.map_cons,
          List.getD_cons_succ]
        exact ih ls h2 j hj

/-- **C10**: positional alignment invariant — `process_files` returns
three parallel sequences (kept files, their names, their structures) in
which index `i` refers to the same document (undecodable and
empty-normalizing files having been removed without disturbing the
correspondence), so the i-th clustering label belongs to the i-th kept
file, and `save_clustered_files` writes exactly one archive entry per
kept file, placing entry `i` under the folder named after label `i`
with file `i`'s name and bytes. -/
theorem pipeline_alignment
    {files pf : List UFile} {names : List String} {strs : List (List Char)}
    (labels : List Int)
    (h : process_files files = some (pf, names, strs))
    (hl : labels.length = pf.length) :
    names = pf.map (fun f => f.name) ∧
    strs.length = pf.length ∧
    (∀ i, i < pf.length →
      ∃ c, (pf.getD i default).decoded = some c ∧
        strs.getD i [] = get_file_structure c ∧
        (get_file_structure c).isEmpty = false) ∧
    (save_clustered_files pf labels).length = pf.length ∧
    (∀ i, i < pf.length →
      (save_clustered_files pf labels).getD i ("", "", []) =
        (folder_name (labels.getD i 0), (pf.getD i default).name,
         (pf.getD i default).bytes)) := by
  unfold process_files at h
  by_cases hemp : (processFilesLoop files).1.isEmpty
  · simp [hemp] at h
  · simp only [hemp, Bool.false_eq_true, if_false, Option.some_inj,
      Prod.mk.injEq] at h
    obtain ⟨h1, h2, h3⟩ := h
    subst h1
    subst h2
    subst h3
    exact ⟨rfl, processFilesLoop_len files,
      fun i hi => processFilesLoop_getD files i hi,
      save_clustered_files_length _ _ hl,
      fun i hi => save_clustered_files_getD _ _ hl i hi⟩

/-- **C10 (witness)**: the alignment invariant on a concrete run with
one undecodable file, one empty file and two surviving files. -/
theorem pipeline_alignment_witness :
    ["a.txt", "b.txt"] =
      [UFile.mk "a.txt" [104] (some ['h', 'i']),
       UFile.mk "b.txt" [106] (some ['y', 'o'])].map (fun f => f.name) ∧
    [['h', 'i'], ['y', 'o']].length =
      [UFile.mk "a.txt" [104] (some ['h', 'i']),
       UFile.mk "b.txt" [106] (some ['y', 'o'])].length ∧
    (∀ i, i < [UFile.mk "a.txt" [104] (some ['h', 'i']),
               UFile.mk "b.txt" [106] (some ['y', 'o'])].length →
      ∃ c, ([UFile.mk "a.txt" [104] (some ['h', 'i']),
             UFile.mk "b.txt" [106] (some ['y', 'o'])].getD i default).decoded
          = some c ∧
        [['h', 'i'], ['y', 'o']].getD i [] = get_file_structure c ∧
        (get_file_structure c).isEmpty = false) ∧
    (save_clustered_files
        [UFile.mk "a.txt" [104] (some ['h', 'i']),
         UFile.mk "b.txt" [106] (some ['y', 'o'])] [0, -1]).length =
      [UFile.mk "a.txt" [104] (some ['h', 'i']),
       UFile.mk "b.txt" [106] (some ['y', 'o'])].length ∧
    (∀ i, i < [UFile.mk "a.txt" [104] (some ['h', 'i']),
               UFile.mk "b.txt" [106] (some ['y', 'o'])].length →
      (save_clustered_files
          [UFile.mk "a.txt" [104] (some ['h', 'i']),
           UFile.mk "b.txt" [106] (some ['y', 'o'])] [0, -1]).getD i ("", "", []) =
        (folder_name (List.getD [0, -1] i 0),
         ([UFile.mk "a.txt" [104] (some ['h', 'i']),
           UFile.mk "b.txt" [106] (some ['y', 'o'])].getD i default).name,
         ([UFile.mk "a.txt" [104] (some ['h', 'i']),
           UFile.mk "b.txt" [106] (some ['y', 'o'])].getD i default).bytes)) :=
  pipeline_alignment [0, -1]
    (show process_files
        [UFile.mk "bad.bin" [255] none,
         UFile.mk "empty.txt" [32] (some [' ']),
         UFile.mk "a.txt" [104] (some ['h', 'i']),
         UFile.mk "b.txt" [106] (some ['y', 'o'])] = some _ by decide)
    (by decide)

end Clustering

namespace Clustering

/-! ## C7: cluster coverage of the archive -/

/-- The document ids (file names) of the archive entries, in order. -/
def entryNames (entries : List (String × String × List Nat)) : List String :=
  entries.map (fun e => e.2.1)

/-- The document ids stored under folder `s`, in archive order — the
group of the ClusterResult keyed by folder name. -/
def namesInFolder (entries : List (String × String × List Nat)) (s : String) :
    List String :=
  (entries.filter (fun e => e.1 == s)).map (fun e => e.2.1)

theorem entryNames_save (pf : List UFile) (labels : List Int)
    (hlen : labels.length = pf.length) :
    entryNames (save_clustered_files pf labels) = pf.map (fun f => f.name) := by
  induction pf generalizing labels with
  | nil => rfl
  | cons f fs ih =>
    cases labels with
    | nil => simp at hlen
    | cons l ls =>
      have h2 : ls.length = fs.length := by simpa using hlen
      have ihh := ih ls h2
      simp only [save_clustered_files, entryNames] at ihh ⊢
      simp only [List.zip_cons_cons, List.map_cons]
      rw [ihh]

/-- Decomposition of archive membership: every entry is the image of
some input position. -/
theorem mem_save_clustered_files {pf : List UFile} {labels : List Int}
    {e : String × String × List Nat}
    (hlen : labels.length = pf.length)
    (he : e ∈ save_clustered_files pf labels) :
    ∃ j, j < pf.length ∧
      e = (folder_name (labels.getD j 0), (pf.getD j default).name,
           (pf.getD j default).bytes) := by
  rcases List.mem_iff_getElem.mp he with ⟨j, hjs, hje⟩
  have hlen2 : (save_clustered_files pf labels).length = pf.length :=
    save_clustered_files_length pf labels hlen
  have hj : j < pf.length := by rw [← hlen2]; exact hjs
  refine ⟨j, hj, ?_⟩
  rw [← hje, ← List.getD_eq_getElem (save_clustered_files pf labels) ("", "", []) hjs]
  exact save_clustered_files_getD pf labels hlen j hj

/-- **C7**: every input document id appears in exactly one group of the
cluster result (the archive folder named after its own label): with
pairwise-distinct ids, the archive's id list is exactly the input id
list (each id written once), every entry carrying the id of input `i`
lies in the folder of label `i`, and each folder's id list is a sublist
of the input id list (input order preserved within each group). -/
theorem cluster_coverage (pf : List UFile) (labels : List Int)
    (hlen : labels.length = pf.length)
    (hnd : (pf.map (fun f => f.name)).Nodup) :
    entryNames (save_clustered_files pf labels) = pf.map (fun f => f.name) ∧
    (∀ i, i < pf.length →
      (entryNames (save_clustered_files pf labels)).count
          ((pf.getD i default).name) = 1 ∧
      ∀ e ∈ save_clustered_files pf labels,
        e.2.1 = (pf.getD i default).name →
        e.1 = folder_name (labels.getD i 0)) ∧
    (∀ s, (namesInFolder (save_clustered_files pf labels) s).Sublist
      (pf.map (fun f => f.name))) := by
  refine ⟨entryNames_save pf labels hlen, ?_, ?_⟩
  · intro i hi
    constructor
    · rw [entryNames_save pf labels hlen]
      refine List.count_eq_one_of_mem hnd ?_
      rw [List.getD_eq_getElem pf default hi]
      exact List.mem_map.mpr ⟨pf[i], List.getElem_mem hi, rfl⟩
    · intro e he hename
      rcases mem_save_clustered_files hlen he with ⟨j, hj, hej⟩
      have hnames : (pf.getD j default).name = (pf.getD i default).name := by
        rw [← hename, hej]
      have hji : j = i := by
        rw [List.getD_eq_getElem pf default hj,
          List.getD_eq_getElem pf default hi] at hnames
        have hmjlen : j < (pf.map (fun f => f.name)).length := by
          rw [List.length_map]
          exact hj
        have hmilen : i < (pf.map (fun f => f.name)).length := by
          rw [List.length_map]
          exact hi
        have hmj : (pf.map (fun f => f.name))[j] = (pf.map (fun f => f.name))[i] := by
          rw [List.getElem_map, List.getElem_map]
          exact hnames
        exact (List.Nodup.getElem_inj_iff hnd).mp hmj
      rw [hej, hji]
  · intro s
    have h1 := List.Sublist.map (fun e : String × String × List Nat => e.2.1)
      (@List.filter_sublist _ (fun e => e.1 == s) (save_clustered_files pf labels))
    have h2 : (save_clustered_files pf labels).map
        (fun e : String × String × List Nat => e.2.1) =
        pf.map (fun f => f.name) := entryNames_save pf labels hlen
    rw [h2] at h1
    exact h1

end Clustering

namespace Clustering

/-- Concrete files for the C7 witness. -/
def wfA : UFile := UFile.mk "a.txt" [97] (some ['a', 'b', 'c'])

def wfB : UFile := UFile.mk "b.txt" [98] (some ['x', 'y', 'z'])

/-- **C7 (witness)**: cluster coverage on a concrete two-file archive
with one clustered file (label 5) and one noise file (label -1). -/
theorem cluster_coverage_witness :
    entryNames (save_clustered_files [wfA, wfB] [5, -1]) =
      [wfA, wfB].map (fun f => f.name) ∧
    (∀ i, i < [wfA, wfB].length →
      (entryNames (save_clustered_files [wfA, wfB] [5, -1])).count
          (([wfA, wfB].getD i default).name) = 1 ∧
      ∀ e ∈ save_clustered_files [wfA, wfB] [5, -1],
        e.2.1 = ([wfA, wfB].getD i default).name →
        e.1 = folder_name (List.getD [5, -1] i 0)) ∧
    (∀ s, (namesInFolder (save_clustered_files [wfA, wfB] [5, -1]) s).Sublist
      ([wfA, wfB].map (fun f => f.name))) :=
  cluster_coverage [wfA, wfB] [5, -1] (by decide) (by decide)

end Clustering

namespace Clustering

/-! ## TF-IDF vectorization (`vectorize_structures`, clustering2.py:40-47)

`TfidfVectorizer(analyzer='char', ngram_range=(3, 5))` with defaults:
tokens are the overlapping character n-grams of each structure for
n = 3, 4, 5; the vocabulary is the set of distinct n-grams of the whole
corpus; the weight of token `t` in document `d` is
`tf(d,t) · idf(t)` with the smoothed
`idf(t) = ln((1+N)/(1+df(t))) + 1`, and each row is then L2-normalized
(`norm='l2'`), a zero row staying zero.  Since `df(t) ≤ N`, the
logarithm is non-negative, so `idf(t) ≥ 1` always; `idf` is
transcendental, so the embedding carries it as a parameter constrained
by that bound (`1 ≤ idf t`), which is all the norm properties depend
on.  L2 normalization divides a row `w` by `√(sumSq w)`; the squared
norm of the normalized row, `sumSq w / sumSq w` (or `0` for a zero
row), is rational and is what `normalizedRowNormSq` computes. -/

/-- The length-`n` character windows of `s` (sklearn `_char_ngrams`). -/
def charGramsN (n : ℕ) (s : List Char) : List (List Char) :=
  (List.range (s.length + 1 - n)).map (fun i => (s.drop i).take n)

/-- All character n-grams for n in [3, 5]. -/
def charNgrams (s : List Char) : List (List Char) :=
  charGramsN 3 s ++ charGramsN 4 s ++ charGramsN 5 s

/-- Corpus vocabulary: the distinct n-grams of all structures (sklearn
sorts the vocabulary; only its membership matters here). -/
def buildVocab (structs : List (List Char)) : List (List Char) :=
  ((structs.map charNgrams).flatten).dedup

/-- Term frequency: occurrences of token `t` in document `s`. -/
def tfCount (s t : List Char) : ℕ := (charNgrams s).count t

/-- Unnormalized TF-IDF row of document `s` over `vocab`. -/
def tfidfRow (idf : List Char → ℚ) (vocab : List (List Char)) (s : List Char) :
    List ℚ :=
  vocab.map (fun t => (tfCount s t : ℚ) * idf t)

/-- Sum of squares of a row (the squared Euclidean norm). -/
def sumSq (v : List ℚ) : ℚ := (v.map (fun a => a * a)).sum

/-- Squared norm of the L2-normalized row: `sumSq v / sumSq v` when the
row is nonzero, `0` for the zero row (sklearn does not divide by zero). -/
def normalizedRowNormSq (v : List ℚ) : ℚ :=
  if sumSq v = 0 then 0 else sumSq v / sumSq v

theorem charGramsN_eq_nil_iff {n : ℕ} {s : List Char} :
    charGramsN n s = [] ↔ s.length < n := by
  unfold charGramsN
  rw [List.map_eq_nil_iff, List.range_eq_nil]
  omega

theorem charNgrams_eq_nil_of_short {s : List Char} (h : s.length < 3) :
    charNgrams s = [] := by
  unfold charNgrams
  rw [charGramsN_eq_nil_iff.mpr h, charGramsN_eq_nil_iff.mpr (by omega),
      charGramsN_eq_nil_iff.mpr (by omega)]
  rfl

theorem take3_mem_charNgrams {s : List Char} (h : 3 ≤ s.length) :
    s.take 3 ∈ charNgrams s := by
  unfold charNgrams
  refine List.mem_append.mpr (Or.inl (List.mem_append.mpr (Or.inl ?_)))
  unfold charGramsN
  refine List.mem_map.mpr ⟨0, ?_, by simp⟩
  rw [List.mem_range]
  omega

theorem mem_buildVocab {structs : List (List Char)} {s t : List Char}
    (hs : s ∈ structs) (ht : t ∈ charNgrams s) : t ∈ buildVocab structs := by
  unfold buildVocab
  rw [List.mem_dedup, List.mem_flatten]
  exact ⟨charNgrams s, List.mem_map.mpr ⟨s, hs, rfl⟩, ht⟩

theorem sumSq_cons (a : ℚ) (v : List ℚ) : sumSq (a :: v) = a * a + sumSq v := by
  simp [sumSq]

theorem sumSq_nonneg (v : List ℚ) : 0 ≤ sumSq v := by
  induction v with
  | nil => simp [sumSq]
  | cons a t ih =>
    rw [sumSq_cons]
    exact add_nonneg (mul_self_nonneg a) ih

theorem sumSq_pos_of_mem {v : List ℚ} {a : ℚ} (ha : a ∈ v) (hne : a ≠ 0) :
    0 < sumSq v := by
  induction v with
  | nil => cases ha
  | cons b t ih =>
    rw [sumSq_cons]
    rcases List.mem_cons.mp ha with h1 | h1
    · subst h1
      exact add_pos_of_pos_of_nonneg (mul_self_pos.mpr hne) (sumSq_nonneg t)
    · exact add_pos_of_nonneg_of_pos (mul_self_nonneg b) (ih h1)

/-- A document shorter than 3 characters (in particular the empty
document) has only zero TF-IDF weights: its row is the zero vector. -/
theorem tfidfRow_eq_zero_of_short (idf : List Char → ℚ)
    (vocab : List (List Char)) {s : List Char} (h : s.length < 3) :
    tfidfRow idf vocab s = List.replicate vocab.length 0 := by
  unfold tfidfRow
  have hz : ∀ t ∈ vocab, ((tfCount s t : ℚ) * idf t) = ((fun _ => (0 : ℚ)) t) := by
    intro t _
    have : tfCount s t = 0 := by
      unfold tfCount
      rw [charNgrams_eq_nil_of_short h]
      rfl
    rw [this]
    simp
  rw [List.map_congr_left hz]
  exact List.map_const vocab 0

theorem sumSq_replicate_zero (n : ℕ) : sumSq (List.replicate n 0) = 0 := by
  induction n with
  | zero => rfl
  | succ m ih =>
    rw [List.replicate_succ, sumSq_cons, ih]
    ring

end Clustering

namespace Clustering

/-- **C6 (counterexample)**: the claim says every document with
non-blank normalized text gets a vector of norm 1.  The normalized text
`"ab"` is non-blank, but — being shorter than the minimum n-gram length
3 — produces no tokens, so in the corpus `["ab", "hello"]` its TF-IDF
row is the zero vector (for any idf; shown at idf ≡ 1) and the
L2-normalized row has norm 0, not 1. -/
theorem nonblank_short_doc_zero_vector_cex :
    get_file_structure ['a', 'b'] = ['a', 'b'] ∧
    (['a', 'b'] : List Char) ≠ [] ∧
    tfidfRow (fun _ => (1 : ℚ))
        (buildVocab [['a', 'b'], ['h', 'e', 'l', 'l', 'o']]) ['a', 'b'] =
      List.replicate
        (buildVocab [['a', 'b'], ['h', 'e', 'l', 'l', 'o']]).length 0 ∧
    normalizedRowNormSq
        (tfidfRow (fun _ => (1 : ℚ))
          (buildVocab [['a', 'b'], ['h', 'e', 'l', 'l', 'o']]) ['a', 'b']) = 0 ∧
    (0 : ℚ) ≠ 1 := by
  have hrow := @tfidfRow_eq_zero_of_short (fun _ => (1 : ℚ))
    (buildVocab [['a', 'b'], ['h', 'e', 'l', 'l', 'o']])
    ['a', 'b'] (by norm_num)
  refine ⟨by decide, by decide, hrow, ?_, by norm_num⟩
  rw [hrow]
  unfold normalizedRowNormSq
  rw [if_pos (sumSq_replicate_zero _)]

/-- **C6 (amended)**: the vectorizer L2-normalizes each TF-IDF row:
every document of the corpus whose normalized text has at least 3
characters (one n-gram) has a nonzero row, and its L2-normalized row
has squared norm exactly 1; a document shorter than 3 characters — in
particular an all-blank one — yields the zero vector, which
normalization leaves at zero (no division by zero).  The idf parameter
carries sklearn's bound `idf(t) = ln((1+N)/(1+df(t))) + 1 ≥ 1`. -/
theorem tfidf_row_norm (structs : List (List Char)) (idf : List Char → ℚ)
    (s : List Char) (hs : s ∈ structs) (hidf : ∀ t, 1 ≤ idf t) :
    (3 ≤ s.length →
      sumSq (tfidfRow idf (buildVocab structs) s) ≠ 0 ∧
      normalizedRowNormSq (tfidfRow idf (buildVocab structs) s) = 1) ∧
    (s.length < 3 →
      tfidfRow idf (buildVocab structs) s =
        List.replicate (buildVocab structs).length 0 ∧
      normalizedRowNormSq (tfidfRow idf (buildVocab structs) s) = 0) := by
  constructor
  · intro h3
    have ht : s.take 3 ∈ buildVocab structs :=
      mem_buildVocab hs (take3_mem_charNgrams h3)
    have htf : 0 < tfCount s (s.take 3) := by
      unfold tfCount
      rw [List.count_pos_iff]
      exact take3_mem_charNgrams h3
    have hval : ((tfCount s (s.take 3) : ℚ) * idf (s.take 3)) ≠ 0 := by
      have h1 : (1 : ℚ) ≤ (tfCount s (s.take 3) : ℚ) := by
        exact_mod_cast htf
      have h2 := hidf (s.take 3)
      positivity
    have hmem : ((tfCount s (s.take 3) : ℚ) * idf (s.take 3)) ∈
        tfidfRow idf (buildVocab structs) s :=
      List.mem_map.mpr ⟨s.take 3, ht, rfl⟩
    have hpos : 0 < sumSq (tfidfRow idf (buildVocab structs) s) :=
      sumSq_pos_of_mem hmem hval
    refine ⟨ne_of_gt hpos, ?_⟩
    unfold normalizedRowNormSq
    rw [if_neg (ne_of_gt hpos)]
    exact div_self (ne_of_gt hpos)
  · intro h3
    have hrow := tfidfRow_eq_zero_of_short idf (buildVocab structs) h3
    refine ⟨hrow, ?_⟩
    rw [hrow]
    unfold normalizedRowNormSq
    rw [if_pos (sumSq_replicate_zero _)]

/-- **C6 (witness)**: the amended claim on the concrete corpus
`["ab", "hello"]` at the document `"hello"` with idf ≡ 1. -/
theorem tfidf_row_norm_witness :
    (3 ≤ (['h', 'e', 'l', 'l', 'o'] : List Char).length →
      sumSq (tfidfRow (fun _ => (1 : ℚ))
        (buildVocab [['a', 'b'], ['h', 'e', 'l', 'l', 'o']])
        ['h', 'e', 'l', 'l', 'o']) ≠ 0 ∧
      normalizedRowNormSq (tfidfRow (fun _ => (1 : ℚ))
        (buildVocab [['a', 'b'], ['h', 'e', 'l', 'l', 'o']])
        ['h', 'e', 'l', 'l', 'o']) = 1) ∧
    ((['h', 'e', 'l', 'l', 'o'] : List Char).length < 3 →
      tfidfRow (fun _ => (1 : ℚ))
          (buildVocab [['a', 'b'], ['h', 'e', 'l', 'l', 'o']])
          ['h', 'e', 'l', 'l', 'o'] =
        List.replicate
          (buildVocab [['a', 'b'], ['h', 'e', 'l', 'l', 'o']]).length 0 ∧
      normalizedRowNormSq (tfidfRow (fun _ => (1 : ℚ))
        (buildVocab [['a', 'b'], ['h', 'e', 'l', 'l', 'o']])
        ['h', 'e', 'l', 'l', 'o']) = 0) :=
  tfidf_row_norm [['a', 'b'], ['h', 'e', 'l', 'l', 'o']] (fun _ => (1 : ℚ))
    ['h', 'e', 'l', 'l', 'o'] (by decide) (fun _ => le_refl 1)

end Clustering

namespace Clustering

/-! ## Sorting lemmas for the k-distance analysis -/

theorem insortQ_perm (a : ℚ) (l : List ℚ) : (insortQ a l).Perm (a :: l) := by
  induction l with
  | nil => exact List.Perm.refl _
  | cons b t ih =>
    unfold insortQ
    split
    · exact List.Perm.refl _
    · exact (List.Perm.cons b ih).trans (List.Perm.swap a b t)

theorem sortQ_perm (l : List ℚ) : (sortQ l).Perm l := by
  induction l with
  | nil => exact List.Perm.refl _
  | cons a t ih =>
    exact (insortQ_perm a (sortQ t)).trans (List.Perm.cons a ih)

theorem insortQ_sorted (a : ℚ) (l : List ℚ) (hs : List.Sorted (· ≤ ·) l) :
    List.Sorted (· ≤ ·) (insortQ a l) := by
  induction l with
  | nil => simp [insortQ]
  | cons b t ih =>
    rw [List.sorted_cons] at hs
    unfold insortQ
    by_cases hab : a ≤ b
    · rw [if_pos hab, List.sorted_cons]
      refine ⟨?_, List.sorted_cons.mpr hs⟩
      intro x hx
      rcases List.mem_cons.mp hx with h1 | h1
      · exact h1 ▸ hab
      · exact le_trans hab (hs.1 x h1)
    · rw [if_neg hab, List.sorted_cons]
      refine ⟨?_, ih hs.2⟩
      intro x hx
      have hx2 := (insortQ_perm a t).mem_iff.mp hx
      rcases List.mem_cons.mp hx2 with h1 | h1
      · exact h1 ▸ le_of_not_le hab
      · exact hs.1 x h1

theorem sortQ_sorted (l : List ℚ) : List.Sorted (· ≤ ·) (sortQ l) := by
  induction l with
  | nil => simp [sortQ]
  | cons a t ih => exact insortQ_sorted a (sortQ t) ih

theorem sorted_count_le : ∀ l : List ℚ, List.Sorted (· ≤ ·) l →
    ∀ k, k < l.length →
    k + 1 ≤ l.countP (fun x => decide (x ≤ l.getD k 0)) := by
  intro l
  induction l with
  | nil =>
    intro _ k hk
    simp at hk
  | cons a t ih =>
    intro hs k hk
    rw [List.sorted_cons] at hs
    cases k with
    | zero =>
      rw [show (a :: t).getD 0 0 = a from rfl]
      have hcc : List.countP (fun x => decide (x ≤ a)) (a :: t) =
          List.countP (fun x => decide (x ≤ a)) t + 1 := by
        rw [List.countP_cons]
        simp
      rw [hcc]
      omega
    | succ k =>
      have hk2 : k < t.length := by simpa using hk
      have hle : a ≤ t.getD k 0 := by
        have hmem : t.getD k 0 ∈ t := by
          rw [List.getD_eq_getElem t 0 hk2]
          exact List.getElem_mem hk2
        exact hs.1 _ hmem
      rw [List.getD_cons_succ]
      have hcc : List.countP (fun x => decide (x ≤ t.getD k 0)) (a :: t) =
          List.countP (fun x => decide (x ≤ t.getD k 0)) t + 1 := by
        rw [List.countP_cons]
        simp
        simpa [List.getD_eq_getElem?_getD] using hle
      rw [hcc]
      have := ih hs.2 k hk2
      omega

theorem sorted_count_lt : ∀ l : List ℚ, List.Sorted (· ≤ ·) l →
    ∀ k, k < l.length →
    l.countP (fun x => decide (x < l.getD k 0)) ≤ k := by
  intro l
  induction l with
  | nil =>
    intro _ k hk
    simp at hk
  | cons a t ih =>
    intro hs k hk
    rw [List.sorted_cons] at hs
    cases k with
    | zero =>
      rw [show (a :: t).getD 0 0 = a from rfl]
      have hz : List.countP (fun x => decide (x < a)) (a :: t) = 0 := by
        rw [List.countP_eq_zero]
        intro x hx
        rcases List.mem_cons.mp hx with h1 | h1
        · subst h1
          simp
        · rw [decide_eq_true_eq]
          exact not_lt_of_le (hs.1 x h1)
      rw [hz]
    | succ k =>
      have hk2 : k < t.length := by simpa using hk
      rw [List.getD_cons_succ, List.countP_cons]
      have := ih hs.2 k hk2
      split <;> omega

end Clustering

namespace Clustering

/-! ## C1 / C3: the k-distance diagnostic -/

/-- **C3 (counterexample)**: the claim says that for `N ≤ k` — in
particular a single-document corpus with `k = 1` — the operation fails
with a `ConfigurationError`.  The code succeeds: the self-inclusive
neighbor query finds the document itself, and the reported distance
key is `-1` (cosine distance `0` to itself). -/
theorem single_doc_k1_returns_cex :
    plot_k_distance [[(1 : ℚ)]] 1 = some [-1] := by
  have hdk : distKeys [[(1 : ℚ)]] 0 = [-1] := by
    unfold distKeys
    rw [show List.range [[(1 : ℚ)]].length = [0] from by decide]
    simp
  have hkth : kthDistanceKey [[(1 : ℚ)]] 1 0 = -1 := by
    unfold kthDistanceKey
    rw [hdk]
    rfl
  unfold plot_k_distance
  rw [if_neg (by simp)]
  rw [show List.range [[(1 : ℚ)]].length = [0] from by decide]
  simp only [List.map_cons, List.map_nil]
  rw [hkth]
  rfl

/-- **C3 (amended)**: `plot_k_distance` returns a result exactly when
`1 ≤ k ≤ N` (self included among the neighbor candidates); for `k = 0`
or `k > N` the underlying `NearestNeighbors` call raises a library
`ValueError` (`Expected n_neighbors <= n_samples`), not a
`ConfigurationError` — no such error type exists in the code. -/
theorem plot_k_distance_succeeds_iff (X : List (List ℚ)) (k : ℕ) :
    (plot_k_distance X k).isSome = true ↔ (1 ≤ k ∧ k ≤ X.length) := by
  unfold plot_k_distance
  by_cases hc : k = 0 ∨ X.length < k
  · rw [if_pos hc]
    simp only [Option.isSome_none]
    constructor
    · intro h
      simp at h
    · intro h
      omega
  · rw [if_neg hc]
    simp only [Option.isSome_some]
    constructor
    · intro _
      omega
    · intro _
      trivial

/-- **C1 (counterexample)**: the claim says the reported distance for
each document is the k-th smallest cosine distance to the OTHER
documents (self excluded).  On the two orthogonal rows `[1,0]`,
`[0,1]` with `k = 1`, the code reports the self-distance (key `-1`,
distance `0`) for both rows, not the distance to the only other row
(key `0`, distance `1`). -/
theorem plot_k_distance_self_not_excluded_cex :
    plot_k_distance [[(1 : ℚ), 0], [(0 : ℚ), 1]] 1 = some [-1, -1] ∧
    distKey [(1 : ℚ), 0] [(0 : ℚ), 1] = 0 ∧
    kthDistanceKey [[(1 : ℚ), 0], [(0 : ℚ), 1]] 1 0 = -1 ∧
    ((-1 : ℚ) ≠ 0) := by
  have hd00 : dotp [(1 : ℚ), 0] [(1 : ℚ), 0] = 1 := by norm_num [dotp]
  have hd11 : dotp [(0 : ℚ), 1] [(0 : ℚ), 1] = 1 := by norm_num [dotp]
  have hd01 : dotp [(1 : ℚ), 0] [(0 : ℚ), 1] = 0 := by norm_num [dotp]
  have hd10 : dotp [(0 : ℚ), 1] [(1 : ℚ), 0] = 0 := by norm_num [dotp]
  have hs00 : simKey [(1 : ℚ), 0] [(1 : ℚ), 0] = 1 :=
    simKey_self (by rw [hd00]; norm_num)
  have hs11 : simKey [(0 : ℚ), 1] [(0 : ℚ), 1] = 1 :=
    simKey_self (by rw [hd11]; norm_num)
  have hs01 : simKey [(1 : ℚ), 0] [(0 : ℚ), 1] = 0 := simKey_orth hd01
  have hs10 : simKey [(0 : ℚ), 1] [(1 : ℚ), 0] = 0 := simKey_orth hd10
  have hdk0 : distKeys [[(1 : ℚ), 0], [(0 : ℚ), 1]] 0 = [-1, 0] := by
    unfold distKeys
    rw [show List.range [[(1 : ℚ), 0], [(0 : ℚ), 1]].length = [0, 1] from by decide]
    simp only [List.map_cons, List.map_nil]
    rw [show ([[(1 : ℚ), 0], [(0 : ℚ), 1]].getD 0 []) = [(1 : ℚ), 0] from rfl,
        show ([[(1 : ℚ), 0], [(0 : ℚ), 1]].getD 1 []) = [(0 : ℚ), 1] from rfl]
    unfold distKey
    rw [hs00, hs01]
    norm_num
  have hdk1 : distKeys [[(1 : ℚ), 0], [(0 : ℚ), 1]] 1 = [0, -1] := by
    unfold distKeys
    rw [show List.range [[(1 : ℚ), 0], [(0 : ℚ), 1]].length = [0, 1] from by decide]
    simp only [List.map_cons, List.map_nil]
    rw [show ([[(1 : ℚ), 0], [(0 : ℚ), 1]].getD 0 []) = [(1 : ℚ), 0] from rfl,
        show ([[(1 : ℚ), 0], [(0 : ℚ), 1]].getD 1 []) = [(0 : ℚ), 1] from rfl]
    unfold distKey
    rw [hs10, hs11]
    norm_num
  have hsortA : sortQ [(-1 : ℚ), 0] = [-1, 0] := by norm_num [sortQ, insortQ]
  have hsortB : sortQ [(0 : ℚ), -1] = [-1, 0] := by norm_num [sortQ, insortQ]
  have hsortC : sortQ [(-1 : ℚ), -1] = [-1, -1] := by norm_num [sortQ, insortQ]
  have hk0 : kthDistanceKey [[(1 : ℚ), 0], [(0 : ℚ), 1]] 1 0 = -1 := by
    unfold kthDistanceKey
    rw [hdk0, hsortA]
    rfl
  have hk1 : kthDistanceKey [[(1 : ℚ), 0], [(0 : ℚ), 1]] 1 1 = -1 := by
    unfold kthDistanceKey
    rw [hdk1, hsortB]
    rfl
  refine ⟨?_, ?_, hk0, by norm_num⟩
  · unfold plot_k_distance
    rw [if_neg (by simp)]
    rw [show List.range [[(1 : ℚ), 0], [(0 : ℚ), 1]].length = [0, 1] from by decide]
    simp only [List.map_cons, List.map_nil]
    rw [hk0, hk1, hsortC]
  · unfold distKey
    rw [hs01]
    norm_num

/-- **C1 (amended)**: for `1 ≤ k ≤ N`, the value reported for document
`i` is the k-th smallest cosine distance from `i` to ALL documents of
the corpus **including `i` itself** (the neighbor query is
self-inclusive, so `k = 1` yields the self-distance, not the nearest
distinct neighbor): at least `k` of the `N` distances from `i` are
`≤` the reported value and fewer than `k` are `<` it; and the returned
sequence is the ascending sort of the per-document values. -/
theorem plot_k_distance_kth_incl_self (X : List (List ℚ)) (k : ℕ)
    (h1 : 1 ≤ k) (h2 : k ≤ X.length) :
    plot_k_distance X k =
      some (sortQ ((List.range X.length).map (kthDistanceKey X k))) ∧
    List.Sorted (· ≤ ·) (sortQ ((List.range X.length).map (kthDistanceKey X k))) ∧
    (sortQ ((List.range X.length).map (kthDistanceKey X k))).Perm
      ((List.range X.length).map (kthDistanceKey X k)) ∧
    ∀ i, i < X.length →
      k ≤ (distKeys X i).countP (fun d => decide (d ≤ kthDistanceKey X k i)) ∧
      (distKeys X i).countP (fun d => decide (d < kthDistanceKey X k i)) ≤ k - 1 := by
  refine ⟨?_, sortQ_sorted _, sortQ_perm _, ?_⟩
  · unfold plot_k_distance
    rw [if_neg (by omega)]
  · intro i hi
    have hlen : (sortQ (distKeys X i)).length = X.length := by
      rw [(sortQ_perm (distKeys X i)).length_eq]
      unfold distKeys
      rw [List.length_map, List.length_range]
    have hk1 : k - 1 < (sortQ (distKeys X i)).length := by omega
    have hsorted := sortQ_sorted (distKeys X i)
    have hle := sorted_count_le (sortQ (distKeys X i)) hsorted (k - 1) hk1
    have hlt := sorted_count_lt (sortQ (distKeys X i)) hsorted (k - 1) hk1
    have hkth : kthDistanceKey X k i = (sortQ (distKeys X i)).getD (k - 1) 0 := rfl
    rw [hkth]
    constructor
    · rw [← (sortQ_perm (distKeys X i)).countP_eq]
      omega
    · rw [← (sortQ_perm (distKeys X i)).countP_eq]
      omega

/-- **C1 (witness)**: the amended claim at the single-document corpus
`[[1]]` with `k = 1`. -/
theorem plot_k_distance_kth_incl_self_witness :
    plot_k_distance [[(1 : ℚ)]] 1 =
      some (sortQ ((List.range [[(1 : ℚ)]].length).map
        (kthDistanceKey [[(1 : ℚ)]] 1))) ∧
    List.Sorted (· ≤ ·) (sortQ ((List.range [[(1 : ℚ)]].length).map
      (kthDistanceKey [[(1 : ℚ)]] 1))) ∧
    (sortQ ((List.range [[(1 : ℚ)]].length).map
      (kthDistanceKey [[(1 : ℚ)]] 1))).Perm
      ((List.range [[(1 : ℚ)]].length).map (kthDistanceKey [[(1 : ℚ)]] 1)) ∧
    ∀ i, i < [[(1 : ℚ)]].length →
      1 ≤ (distKeys [[(1 : ℚ)]] i).countP
        (fun d => decide (d ≤ kthDistanceKey [[(1 : ℚ)]] 1 i)) ∧
      (distKeys [[(1 : ℚ)]] i).countP
        (fun d => decide (d < kthDistanceKey [[(1 : ℚ)]] 1 i)) ≤ 1 - 1 :=
  plot_k_distance_kth_incl_self [[(1 : ℚ)]] 1 (by norm_num) (by simp)

end Clustering

namespace Clustering

/-! ## DBSCAN invariants -/

theorem innerLabels_preserve {labels : ℕ → Int} {lab : Int} {i p : ℕ}
    (hlab : lab ≠ -1) (hp : labels p ≠ -1) : innerLabels labels lab i p ≠ -1 := by
  unfold innerLabels updLab
  split
  · show (if p = i then lab else labels p) ≠ -1
    split
    · exact hlab
    · exact hp
  · exact hp

theorem dbscanInner_preserve : ∀ (fuel : ℕ) (nbrs : ℕ → List ℕ) (core : ℕ → Bool)
    (lab : Int), lab ≠ -1 → ∀ (i : ℕ) (stack : List ℕ) (labels : ℕ → Int) (p : ℕ),
    labels p ≠ -1 → dbscanInner fuel nbrs core lab i stack labels p ≠ -1 := by
  intro fuel
  induction fuel with
  | zero =>
    intro nbrs core lab _ i stack labels p hp
    exact hp
  | succ n ih =>
    intro nbrs core lab hlab i stack labels p hp
    unfold dbscanInner
    generalize (innerStack nbrs core labels lab i stack).getLast? = ls
    cases ls with
    | none => exact innerLabels_preserve hlab hp
    | some j => exact ih nbrs core lab hlab _ _ _ p (innerLabels_preserve hlab hp)

/-- The expansion labels its seed point in its very first step. -/
theorem dbscanInner_labels_seed {fuel : ℕ} (nbrs : ℕ → List ℕ) (core : ℕ → Bool)
    {lab : Int} (hfuel : 1 ≤ fuel) (hlab : lab ≠ -1) (i : ℕ) (stack : List ℕ)
    (labels : ℕ → Int) :
    dbscanInner fuel nbrs core lab i stack labels i ≠ -1 := by
  cases fuel with
  | zero => omega
  | succ n =>
    have hbase : innerLabels labels lab i i ≠ -1 := by
      unfold innerLabels updLab
      split
      · show (if i = i then lab else labels i) ≠ -1
        rw [if_pos rfl]
        exact hlab
      · next h =>
        intro hc
        exact h (by rw [hc]; rfl)
    unfold dbscanInner
    generalize (innerStack nbrs core labels lab i stack).getLast? = ls
    cases ls with
    | none => exact hbase
    | some j => exact dbscanInner_preserve n nbrs core lab hlab _ _ _ i hbase

theorem dbscanOuter_preserve : ∀ (order : List ℕ) (nbrs : ℕ → List ℕ)
    (core : ℕ → Bool) (fuel : ℕ) (labelNum : Int), 0 ≤ labelNum →
    ∀ (labels : ℕ → Int) (p : ℕ), labels p ≠ -1 →
    dbscanOuter order nbrs core fuel labelNum labels p ≠ -1 := by
  intro order
  induction order with
  | nil =>
    intro nbrs core fuel labelNum _ labels p hp
    exact hp
  | cons m rest ih =>
    intro nbrs core fuel labelNum hnum labels p hp
    unfold dbscanOuter
    split
    · exact ih nbrs core fuel labelNum hnum labels p hp
    · refine ih nbrs core fuel (labelNum + 1) (by omega) _ p ?_
      exact dbscanInner_preserve fuel nbrs core labelNum (by omega) m [] labels p hp

/-- Every still-unlabeled core point in the scan order ends up with a
label other than `-1`. -/
theorem dbscanOuter_labels_core : ∀ (order : List ℕ) (nbrs : ℕ → List ℕ)
    (core : ℕ → Bool) (fuel : ℕ) (labelNum : Int), 0 ≤ labelNum → 1 ≤ fuel →
    ∀ (labels : ℕ → Int) (i : ℕ), i ∈ order → core i = true →
    dbscanOuter order nbrs core fuel labelNum labels i ≠ -1 := by
  intro order
  induction order with
  | nil =>
    intro nbrs core fuel labelNum _ _ labels i hmem
    cases hmem
  | cons m rest ih =>
    intro nbrs core fuel labelNum hnum hfuel labels i hmem hcore
    unfold dbscanOuter
    rcases List.mem_cons.mp hmem with h1 | h1
    · subst h1
      split
      · next h =>
        have hlm : labels i ≠ -1 := by
          rcases Bool.or_eq_true_iff.mp h with h2 | h2
          · intro hc
            rw [bne_iff_ne] at h2
            exact h2 hc
          · rw [Bool.not_eq_true'] at h2
            rw [hcore] at h2
            cases h2
        exact dbscanOuter_preserve rest nbrs core fuel labelNum hnum labels i hlm
      · refine dbscanOuter_preserve rest nbrs core fuel (labelNum + 1) (by omega) _ i ?_
        exact dbscanInner_labels_seed nbrs core hfuel (by omega) i [] labels
    · split
      · exact ih nbrs core fuel labelNum hnum hfuel labels i h1 hcore
      · exact ih nbrs core fuel (labelNum + 1) (by omega) hfuel _ i h1 hcore

/-- Every point is within `eps ≥ 0` of itself through the zeroed
diagonal of the distance matrix, so with `min_samples = 1` every point
is a core point and the scan labels it. -/
theorem dbscan_minpts_one_labeled (vs : List (List ℚ)) (eps : ℚ) (i : ℕ)
    (heps : 0 < eps) (hi : i < vs.length) : dbscan vs eps 1 i ≠ -1 := by
  unfold dbscan
  apply dbscanOuter_labels_core
  · norm_num
  · omega
  · exact List.mem_range.mpr hi
  · unfold isCore
    have hmem : i ∈ neighborsOf vs eps i := by
      unfold neighborsOf
      rw [List.mem_filter]
      refine ⟨List.mem_range.mpr hi, ?_⟩
      unfold withinEpsIdx
      rw [if_pos rfl]
      exact decide_eq_true (le_of_lt heps)
    have hlen : 0 < (neighborsOf vs eps i).length :=
      List.length_pos.mpr (List.ne_nil_of_mem hmem)
    exact decide_eq_true (by omega)

/-- **C5**: with `min_points = 1` and `eps > 0`, DBSCAN never assigns
the noise label `-1` to any document: `cosine_distances` zeroes the
diagonal when the query is the fitted matrix, so every document —
all-zero vectors included — is within `eps` of itself, hence a core
point, and the scan labels every still-unlabeled core point
(documents with no other eps-neighbors become singleton clusters). -/
theorem minpts_one_no_noise (vs : List (List ℚ)) (eps : ℚ) (i : ℕ)
    (heps : 0 < eps) (hi : i < vs.length) : dbscan vs eps 1 i ≠ -1 :=
  dbscan_minpts_one_labeled vs eps i heps hi

/-- **C5 (witness)**: the delicate case — an all-zero vector next to a
nonzero one, `eps = 1/20`, `min_points = 1`: even the zero-row
document is not noise (it is its own neighbor through the zeroed
diagonal). -/
theorem minpts_one_no_noise_witness :
    dbscan [[(0 : ℚ)], [(1 : ℚ)]] (1 / 20) 1 0 ≠ -1 :=
  minpts_one_no_noise [[(0 : ℚ)], [(1 : ℚ)]] (1 / 20) 0 (by norm_num) (by simp)

end Clustering

namespace Clustering

/-! ## C8: all-zero vectors are isolated (for eps < 1) -/

theorem dbscanInner_untouched : ∀ (fuel : ℕ) (nbrs : ℕ → List ℕ)
    (core : ℕ → Bool) (lab : Int) (cur : ℕ) (stack : List ℕ)
    (labels : ℕ → Int) (i : ℕ),
    (∀ j, j ≠ i → i ∉ nbrs j) → i ∉ stack → cur ≠ i → labels i = -1 →
    dbscanInner fuel nbrs core lab cur stack labels i = -1 := by
  intro fuel
  induction fuel with
  | zero =>
    intro nbrs core lab cur stack labels i _ _ _ hli
    exact hli
  | succ n ih =>
    intro nbrs core lab cur stack labels i hnb hst hcur hli
    have hlab1 : innerLabels labels lab cur i = -1 := by
      unfold innerLabels updLab
      split
      · show (if i = cur then lab else labels i) = -1
        rw [if_neg (fun he => hcur he.symm)]
        exact hli
      · exact hli
    have hst1 : i ∉ innerStack nbrs core labels lab cur stack := by
      unfold innerStack
      split
      · intro hmem
        rcases List.mem_append.mp hmem with h1 | h1
        · exact hst h1
        · exact hnb cur hcur (List.mem_of_mem_filter h1)
      · exact hst
    unfold dbscanInner
    generalize hLast : (innerStack nbrs core labels lab cur stack).getLast? = ls
    cases ls with
    | none => exact hlab1
    | some j =>
      refine ih nbrs core lab j _ _ i hnb ?_ ?_ hlab1
      · intro hmem
        exact hst1 ((List.dropLast_sublist _).subset hmem)
      · intro hji
        exact hst1 (hji ▸ List.mem_of_mem_getLast? hLast)

theorem dbscanOuter_untouched : ∀ (order : List ℕ) (nbrs : ℕ → List ℕ)
    (core : ℕ → Bool) (fuel : ℕ) (labelNum : Int) (labels : ℕ → Int) (i : ℕ),
    (∀ j, j ≠ i → i ∉ nbrs j) → core i = false → labels i = -1 →
    dbscanOuter order nbrs core fuel labelNum labels i = -1 := by
  intro order
  induction order with
  | nil =>
    intro nbrs core fuel labelNum labels i _ _ hli
    exact hli
  | cons m rest ih =>
    intro nbrs core fuel labelNum labels i hnb hcore hli
    unfold dbscanOuter
    split
    · exact ih nbrs core fuel labelNum labels i hnb hcore hli
    · next h =>
      have hmi : m ≠ i := by
        intro he
        subst he
        exact h (by rw [hcore]; simp)
      refine ih nbrs core fuel (labelNum + 1) _ i hnb hcore ?_
      exact dbscanInner_untouched fuel nbrs core labelNum m [] labels i hnb
        (List.not_mem_nil i) hmi hli

/-- A duplicate-free list of naturals whose members all equal `i` has
at most one element. -/
theorem nodup_all_eq_length_le_one {l : List ℕ} {i : ℕ} (hnd : l.Nodup)
    (h : ∀ x ∈ l, x = i) : l.length ≤ 1 := by
  cases l with
  | nil => simp
  | cons a t =>
    cases t with
    | nil => simp
    | cons b u =>
      exfalso
      have ha := h a (List.mem_cons_self _ _)
      have hb := h b (List.mem_cons_of_mem _ (List.mem_cons_self _ _))
      rw [List.nodup_cons] at hnd
      exact hnd.1 (by rw [ha, hb]; exact List.mem_cons_self i u)

/-- **C8 (amended)**: for `0 < eps < 1` an all-zero vector is, at the
value level, within `eps` of no vector in either direction (sklearn's
convention gives similarity 0, hence distance 1, to every pair of
distinct positions involving a zero row, and 1 is the maximal cosine
distance between non-negative TF-IDF rows); its only possible neighbor
is itself, through the zeroed diagonal of the self-query distance
matrix.  Consequently it is isolated, never clustered together with
any other document by shared zeroness: with `min_points ≥ 2` it is not
a core point and is reached from no other point, so DBSCAN labels it
noise (`-1`); with `min_points = 1` it is a core point via its
self-neighbor and lands in a cluster (the singleton side of the
claim).  The clusterer itself is total over all vector lists, zero
vectors included.  For `eps ≥ 1` the claim fails — see the
counterexample. -/
theorem zero_vector_isolated (vs : List (List ℚ)) (eps : ℚ) (i : ℕ)
    (heps0 : 0 < eps) (heps1 : eps < 1)
    (hz : dotp (vs.getD i []) (vs.getD i []) = 0) :
    (∀ y, withinEps (vs.getD i []) y eps = false ∧
      withinEps y (vs.getD i []) eps = false) ∧
    (∀ x, x ∈ neighborsOf vs eps i → x = i) ∧
    (∀ minPts, 2 ≤ minPts → dbscan vs eps minPts i = -1) ∧
    (i < vs.length → dbscan vs eps 1 i ≠ -1) := by
  have hL : ∀ y, withinEps (vs.getD i []) y eps = false := fun y => by
    rw [withinEps_zero_left y hz]
    exact decide_eq_false (by linarith)
  have hR : ∀ y, withinEps y (vs.getD i []) eps = false := fun y => by
    rw [withinEps_zero_right y hz]
    exact decide_eq_false (by linarith)
  have hsub : ∀ x, x ∈ neighborsOf vs eps i → x = i := by
    intro x hx
    unfold neighborsOf at hx
    rw [List.mem_filter] at hx
    have h2 := hx.2
    unfold withinEpsIdx at h2
    by_cases hxi : i = x
    · exact hxi.symm
    · rw [if_neg hxi, hL (vs.getD x [])] at h2
      cases h2
  have hnotnb : ∀ j, j ≠ i → i ∉ neighborsOf vs eps j := by
    intro j hji hmem
    unfold neighborsOf at hmem
    rw [List.mem_filter] at hmem
    have h2 := hmem.2
    unfold withinEpsIdx at h2
    rw [if_neg hji, hR (vs.getD j [])] at h2
    cases h2
  refine ⟨fun y => ⟨hL y, hR y⟩, hsub, ?_, ?_⟩
  · intro minPts hmp
    unfold dbscan
    apply dbscanOuter_untouched
    · exact hnotnb
    · unfold isCore
      rw [decide_eq_false_iff_not]
      intro hcon
      have hnd : (neighborsOf vs eps i).Nodup :=
        List.Nodup.filter _ (List.nodup_range _)
      have hle := nodup_all_eq_length_le_one hnd hsub
      omega
    · rfl
  · intro hi
    exact dbscan_minpts_one_labeled vs eps i heps0 hi

/-- **C8 (witness)**: the amended claim on a concrete corpus with one
zero vector, `eps = 1/2`. -/
theorem zero_vector_isolated_witness :
    (∀ y, withinEps ([[(0 : ℚ)], [(1 : ℚ)]].getD 0 []) y (1 / 2) = false ∧
      withinEps y ([[(0 : ℚ)], [(1 : ℚ)]].getD 0 []) (1 / 2) = false) ∧
    (∀ x, x ∈ neighborsOf [[(0 : ℚ)], [(1 : ℚ)]] (1 / 2) 0 → x = 0) ∧
    (∀ minPts, 2 ≤ minPts →
      dbscan [[(0 : ℚ)], [(1 : ℚ)]] (1 / 2) minPts 0 = -1) ∧
    (0 < [[(0 : ℚ)], [(1 : ℚ)]].length →
      dbscan [[(0 : ℚ)], [(1 : ℚ)]] (1 / 2) 1 0 ≠ -1) :=
  zero_vector_isolated [[(0 : ℚ)], [(1 : ℚ)]] (1 / 2) 0 (by norm_num)
    (by norm_num) (by norm_num [dotp])

end Clustering

namespace Clustering

/-- **C8 (counterexample)**: the claim says an all-zero vector is never
within `eps` of any other vector for every eps in the valid range
(`eps > 0`) — so zero documents are never clustered together by their
shared zeroness.  At `eps = 1` (a value the UI accepts) the distance-1
convention makes two all-zero vectors neighbors of each other, and
DBSCAN with `min_points = 1` puts both into the same cluster 0. -/
theorem zero_vectors_cocluster_cex :
    withinEps [(0 : ℚ)] [(0 : ℚ)] 1 = true ∧
    dbscan [[(0 : ℚ)], [(0 : ℚ)]] 1 1 0 = 0 ∧
    dbscan [[(0 : ℚ)], [(0 : ℚ)]] 1 1 1 = 0 := by
  have hz : dotp [(0 : ℚ)] [(0 : ℚ)] = 0 := by norm_num [dotp]
  have hw : withinEps [(0 : ℚ)] [(0 : ℚ)] 1 = true := by
    rw [withinEps_zero_left _ hz]
    exact decide_eq_true (by norm_num)
  have hi00 : withinEpsIdx [[(0 : ℚ)], [(0 : ℚ)]] 1 0 0 = true := by
    unfold withinEpsIdx
    rw [if_pos rfl]
    exact decide_eq_true (by norm_num)
  have hi01 : withinEpsIdx [[(0 : ℚ)], [(0 : ℚ)]] 1 0 1 = true := by
    unfold withinEpsIdx
    rw [if_neg (by norm_num)]
    rw [show ([[(0 : ℚ)], [(0 : ℚ)]].getD 0 []) = [(0 : ℚ)] from rfl,
        show ([[(0 : ℚ)], [(0 : ℚ)]].getD 1 []) = [(0 : ℚ)] from rfl]
    exact hw
  have hi10 : withinEpsIdx [[(0 : ℚ)], [(0 : ℚ)]] 1 1 0 = true := by
    unfold withinEpsIdx
    rw [if_neg (by norm_num)]
    rw [show ([[(0 : ℚ)], [(0 : ℚ)]].getD 0 []) = [(0 : ℚ)] from rfl,
        show ([[(0 : ℚ)], [(0 : ℚ)]].getD 1 []) = [(0 : ℚ)] from rfl]
    exact hw
  have hi11 : withinEpsIdx [[(0 : ℚ)], [(0 : ℚ)]] 1 1 1 = true := by
    unfold withinEpsIdx
    rw [if_pos rfl]
    exact decide_eq_true (by norm_num)
  have hn0 : neighborsOf [[(0 : ℚ)], [(0 : ℚ)]] 1 0 = [0, 1] := by
    unfold neighborsOf
    rw [show List.range [[(0 : ℚ)], [(0 : ℚ)]].length = [0, 1] from by decide]
    rw [List.filter_cons, List.filter_cons, List.filter_nil]
    rw [hi00, hi01]
    simp
  have hn1 : neighborsOf [[(0 : ℚ)], [(0 : ℚ)]] 1 1 = [0, 1] := by
    unfold neighborsOf
    rw [show List.range [[(0 : ℚ)], [(0 : ℚ)]].length = [0, 1] from by decide]
    rw [List.filter_cons, List.filter_cons, List.filter_nil]
    rw [hi10, hi11]
    simp
  have hc0 : isCore [[(0 : ℚ)], [(0 : ℚ)]] 1 1 0 = true := by
    unfold isCore
    rw [hn0]
    rfl
  have hc1 : isCore [[(0 : ℚ)], [(0 : ℚ)]] 1 1 1 = true := by
    unfold isCore
    rw [hn1]
    rfl
  have hstk0 : innerStack (neighborsOf [[(0 : ℚ)], [(0 : ℚ)]] 1)
      (isCore [[(0 : ℚ)], [(0 : ℚ)]] 1 1) (fun _ => (-1 : Int)) 0 0 [] = [1] := by
    unfold innerStack
    rw [hn0]
    simp [innerLabels, updLab, hc0]
  have hstk1 : innerStack (neighborsOf [[(0 : ℚ)], [(0 : ℚ)]] 1)
      (isCore [[(0 : ℚ)], [(0 : ℚ)]] 1 1)
      (innerLabels (fun _ => (-1 : Int)) 0 0) 0 1 [] = [] := by
    unfold innerStack
    rw [hn1]
    simp [innerLabels, updLab, hc1]
  have hinner : ∀ p, dbscanInner (3 + 2)
      (neighborsOf [[(0 : ℚ)], [(0 : ℚ)]] 1) (isCore [[(0 : ℚ)], [(0 : ℚ)]] 1 1)
      0 0 [] (fun _ => (-1 : Int)) p =
      innerLabels (innerLabels (fun _ => (-1 : Int)) 0 0) 0 1 p := by
    intro p
    unfold dbscanInner
    rw [hstk0]
    rw [show ([1] : List ℕ).getLast? = some 1 from rfl]
    show dbscanInner (3 + 1)
        (neighborsOf [[(0 : ℚ)], [(0 : ℚ)]] 1) (isCore [[(0 : ℚ)], [(0 : ℚ)]] 1 1)
        0 1 (([1] : List ℕ).dropLast) (innerLabels (fun _ => (-1 : Int)) 0 0) p = _
    rw [show (([1] : List ℕ).dropLast) = [] from rfl]
    unfold dbscanInner
    rw [hstk1]
    rfl
  refine ⟨hw, ?_, ?_⟩
  · unfold dbscan
    rw [show List.range [[(0 : ℚ)], [(0 : ℚ)]].length = [0, 1] from by decide,
        show [[(0 : ℚ)], [(0 : ℚ)]].length * [[(0 : ℚ)], [(0 : ℚ)]].length + 1 = 3 + 2
          from by decide]
    unfold dbscanOuter
    rw [show ((fun _ : ℕ => (-1 : Int)) 0 != -1 ||
        !(isCore [[(0 : ℚ)], [(0 : ℚ)]] 1 1 0)) = false from by rw [hc0]; rfl]
    simp only [Bool.false_eq_true, if_false]
    unfold dbscanOuter
    rw [show (dbscanInner (3 + 2) (neighborsOf [[(0 : ℚ)], [(0 : ℚ)]] 1)
        (isCore [[(0 : ℚ)], [(0 : ℚ)]] 1 1) 0 0 [] (fun _ => (-1 : Int)) 1 != -1 ||
        !(isCore [[(0 : ℚ)], [(0 : ℚ)]] 1 1 1)) = true from by
      rw [hinner 1]
      simp [innerLabels, updLab]]
    simp only [if_true]
    unfold dbscanOuter
    rw [hinner 0]
    simp [innerLabels, updLab]
  · unfold dbscan
    rw [show List.range [[(0 : ℚ)], [(0 : ℚ)]].length = [0, 1] from by decide,
        show [[(0 : ℚ)], [(0 : ℚ)]].length * [[(0 : ℚ)], [(0 : ℚ)]].length + 1 = 3 + 2
          from by decide]
    unfold dbscanOuter
    rw [show ((fun _ : ℕ => (-1 : Int)) 0 != -1 ||
        !(isCore [[(0 : ℚ)], [(0 : ℚ)]] 1 1 0)) = false from by rw [hc0]; rfl]
    simp only [Bool.false_eq_true, if_false]
    unfold dbscanOuter
    rw [show (dbscanInner (3 + 2) (neighborsOf [[(0 : ℚ)], [(0 : ℚ)]] 1)
        (isCore [[(0 : ℚ)], [(0 : ℚ)]] 1 1) 0 0 [] (fun _ => (-1 : Int)) 1 != -1 ||
        !(isCore [[(0 : ℚ)], [(0 : ℚ)]] 1 1 1)) = true from by
      rw [hinner 1]
      simp [innerLabels, updLab]]
    simp only [if_true]
    unfold dbscanOuter
    rw [hinner 1]
    simp [innerLabels, updLab]

end Clustering
